import Mathlib

/-!
Verification of the pcap-analyzer core against its specification.

The TypeScript source is shallowly embedded: JS strings are modeled as
`List Char`, JS string methods (`split`, `trim`, `includes`, `startsWith`,
regular-expression matching) are translated to explicit recursive
functions with JS semantics, external tool invocations become function
parameters (oracles), and fallible async calls become `Except`.
-/

set_option maxHeartbeats 1000000

/-- JS whitespace test, as used by `String.prototype.trim` and the
regular-expression class `\s` (ASCII and the common Unicode space
code points). -/
def jsWs (c : Char) : Bool :=
  c = ' ' || c = '\t' || c = '\n' || c = '\x0b' || c = '\x0c' || c = '\r' ||
  c = ' ' || c = ' ' || (' ' ≤ c && c ≤ ' ') ||
  c = ' ' || c = ' ' || c = ' ' || c = ' ' ||
  c = '　' || c = '﻿'

/-- JS `String.prototype.trim`: strip `jsWs` characters from both ends. -/
def jsTrim (s : List Char) : List Char :=
  ((s.dropWhile jsWs).reverse.dropWhile jsWs).reverse

/-- JS `String.prototype.split` with a one-character separator: every
occurrence separates, empty pieces are kept, and the empty string splits
to one empty piece. -/
def splitOnChar (sep : Char) : List Char → List (List Char)
  | [] => [[]]
  | c :: rest =>
    let ps := splitOnChar sep rest
    if c = sep then [] :: ps
    else
      match ps with
      | [] => [[c]]
      | p :: tailPieces => (c :: p) :: tailPieces

/-- Boolean test that `pre` is a prefix of `s` (JS `String.prototype.startsWith`). -/
def startsWithChars : List Char → List Char → Bool
  | [], _ => true
  | _ :: _, [] => false
  | a :: as, b :: bs => a = b && startsWithChars as bs

/-- Strip a literal prefix, returning the remainder on success. -/
def dropLit (pre : List Char) (s : List Char) : Option (List Char) :=
  match pre, s with
  | [], s => some s
  | _ :: _, [] => none
  | a :: as, b :: bs => if a = b then dropLit as bs else none

/-- JS `String.prototype.includes`: substring search. -/
def containsSub (needle : List Char) : List Char → Bool
  | [] => startsWithChars needle []
  | c :: rest => startsWithChars needle (c :: rest) || containsSub needle rest

/-- Decimal value of a digit string (the effect of JS `parseInt(s, 10)` on
an all-digit string). -/
def digitsToNat (ds : List Char) : Nat :=
  ds.foldl (fun acc c => acc * 10 + (c.toNat - '0'.toNat)) 0

/-- Join pieces with a separator (JS `Array.prototype.join`). -/
def joinSep (sep : List Char) : List (List Char) → List Char
  | [] => []
  | [p] => p
  | p :: q :: rest => p ++ sep ++ joinSep sep (q :: rest)

/-! ## Capinfos parser (src/class/PCAPAnalyzer.ts, getCapinfos)

JS `Record<string, string>` is modeled as an association list in insertion
order: assigning to an existing key replaces its value in place, a new key
is appended at the end. -/

/-- JS object property assignment on a string-keyed record. -/
def upsertRecord (m : List (List Char × List Char)) (k v : List Char) :
    List (List Char × List Char) :=
  if m.any (fun p => decide (p.1 = k)) then
    m.map (fun p => if p.1 = k then (k, v) else p)
  else m ++ [(k, v)]

/-- Embedding of `getCapinfos` applied to the text produced by the external
`capinfos` call.  Per line: `const [key, ...valueParts] = line.split(":")`,
then `const value = valueParts.join(":".trim())` — note the `.trim()` is
applied to the separator literal `":"`, not to the joined value, so the
stored value is NOT trimmed — and `if (key && value)` keeps the entry under
the trimmed key. -/
def getCapinfos (capinfosOutput : List Char) : List (List Char × List Char) :=
  (splitOnChar '\n' (jsTrim capinfosOutput)).foldl
    (fun acc line =>
      let parts := splitOnChar ':' line
      let key := parts.headD []
      let value := joinSep [':'] parts.tail
      if key ≠ [] ∧ value ≠ [] then upsertRecord acc (jsTrim key) value else acc)
    []

/-! ## MAC inventory parser (src/class/PCAPAnalyzer.ts, getMacAddresses) -/

/-- One MAC inventory record: `{address, manufacturer}` with the
manufacturer absent when the field is missing or trims to empty. -/
structure MacRecord where
  address : List Char
  manufacturer : Option (List Char)
deriving DecidableEq, Repr

/-- Trim an optional vendor field; empty after trimming becomes absent
(JS `manufacturer?.trim() || null`). -/
def trimToOption : Option (List Char) → Option (List Char)
  | none => none
  | some m => let t := jsTrim m; if t = [] then none else some t

/-- The `map`/`filter(Boolean)` loop of `getMacAddresses` with its `seen`
set of raw (untrimmed) address strings.  A line whose raw first field is
empty or already in `seen` contributes nothing; otherwise the raw field is
added to `seen` and the record carries the trimmed address. -/
def macLoop (seen : List (List Char)) : List (List Char) → List MacRecord
  | [] => []
  | line :: rest =>
    let parts := splitOnChar '\t' line
    let address := parts.headD []
    let manufacturer := parts[1]?
    if address = [] ∨ address ∈ seen then macLoop seen rest
    else ⟨jsTrim address, trimToOption manufacturer⟩ :: macLoop (address :: seen) rest

/-- Embedding of `getMacAddresses` applied to the external `tshark` output:
trim the whole output, split into lines, and run the dedup loop. -/
def getMacAddresses (macOutput : List Char) : List MacRecord :=
  macLoop [] (splitOnChar '\n' (jsTrim macOutput))

/-- Spec-side pairing of each line into `(first tab field, optional second
tab field)`, used to state the corrected dedup contract for C5. -/
def macPairs (text : List Char) : List (List Char × Option (List Char)) :=
  (splitOnChar '\n' (jsTrim text)).map fun line =>
    let parts := splitOnChar '\t' line
    (parts.headD [], parts[1]?)

/-- Spec-side first-occurrence dedup keyed on the raw first field, skipping
empty keys (amended C5 contract). -/
def dedupFirstByKey (seen : List (List Char)) :
    List (List Char × Option (List Char)) → List (List Char × Option (List Char))
  | [] => []
  | (k, v) :: rest =>
    if k = [] ∨ k ∈ seen then dedupFirstByKey seen rest
    else (k, v) :: dedupFirstByKey (k :: seen) rest

/-- Record built from a deduplicated raw pair. -/
def mkMacRecord (p : List Char × Option (List Char)) : MacRecord :=
  ⟨jsTrim p.1, trimToOption p.2⟩

/-! ## Host/IP classifier (src/class/PCAPAnalyzer.ts, getIpHostPairs)

The JS code classifies with `ip.split(".").map(Number)`; `Number` is
modeled below as an exact mantissa/exponent pair.  `NaN` is modeled as `none`; `Infinity` is also mapped to
`none`, which is sound for every comparison this file performs: equality
with a finite number is `false` for both, and the only range test is the
conjunction `b >= 16 && b <= 31`, which is `false` for `Infinity` as well.
Fractional literals (a dot inside the operand) cannot occur because every
operand comes from `split(".")`. -/

/-- Value of a hexadecimal digit character. -/
def hexDigitVal (c : Char) : Option Nat :=
  if c.isDigit then some (c.toNat - '0'.toNat)
  else if 'a' ≤ c ∧ c ≤ 'f' then some (c.toNat - 'a'.toNat + 10)
  else if 'A' ≤ c ∧ c ≤ 'F' then some (c.toNat - 'A'.toNat + 10)
  else none

/-- Digits of a number in base `b`, most significant first. -/
def parseRadixAux (b : Nat) : List Char → Nat → Option Nat
  | [], acc => some acc
  | c :: rest, acc =>
    match hexDigitVal c with
    | none => none
    | some v => if v < b then parseRadixAux b rest (acc * b + v) else none

/-- Parse a nonempty all-digit string in base `b` (used after the JS
`0x`/`0o`/`0b` radix markers). -/
def parseRadix (b : Nat) (ds : List Char) : Option Nat :=
  if ds = [] then none else parseRadixAux b ds 0

/-- Parse a trailing decimal exponent: empty input means exponent `0`;
otherwise `e`/`E`, an optional sign, and a nonempty digit run consuming the
whole remainder. -/
def parseExpTail : List Char → Option Int
  | [] => some 0
  | e :: rest =>
    if e = 'e' ∨ e = 'E' then
      match rest with
      | '+' :: ds =>
        if ds ≠ [] ∧ ds.all Char.isDigit then some (digitsToNat ds : Int) else none
      | '-' :: ds =>
        if ds ≠ [] ∧ ds.all Char.isDigit then some (-(digitsToNat ds : Int)) else none
      | ds =>
        if ds ≠ [] ∧ ds.all Char.isDigit then some (digitsToNat ds : Int) else none
    else none

/-- Unsigned decimal part of JS `Number`: a nonempty digit run with an
optional exponent tail, represented exactly as a mantissa/exponent pair
with value m·10^e.  `Infinity` maps to `none` (see the section
comment). -/
def parseUnsignedDec (t : List Char) : Option (Int × Int) :=
  if t = "Infinity".toList then none
  else
    let ds := t.takeWhile Char.isDigit
    if ds = [] then none
    else
      match parseExpTail (t.dropWhile Char.isDigit) with
      | none => none
      | some e => some ((digitsToNat ds : Int), e)

/-- JS `Number(string)` on the operand shapes reachable from this file:
trimmed input, empty string is `0`, radix-prefixed integers, signed
decimals with optional exponent; anything else (including `Infinity`, see
the section comment) is `none`.  The result `some (m, e)` denotes the
exact value m·10^e. -/
def jsNumber (s : List Char) : Option (Int × Int) :=
  let t := jsTrim s
  match t with
  | [] => some (0, 0)
  | '+' :: rest => parseUnsignedDec rest
  | '-' :: rest => (parseUnsignedDec rest).map (fun p => (-p.1, p.2))
  | '0' :: c :: rest =>
    if c = 'x' ∨ c = 'X' then (parseRadix 16 rest).map (fun n => ((n : Int), 0))
    else if c = 'o' ∨ c = 'O' then (parseRadix 8 rest).map (fun n => ((n : Int), 0))
    else if c = 'b' ∨ c = 'B' then (parseRadix 2 rest).map (fun n => ((n : Int), 0))
    else parseUnsignedDec t
  | _ => parseUnsignedDec t

/-- JS strict equality of a possibly-NaN number with a numeric literal:
m·10^e = n, decided exactly by clearing the denominator. -/
def numEqNat (x : Option (Int × Int)) (n : Nat) : Bool :=
  match x with
  | none => false
  | some (m, e) =>
    if 0 ≤ e then decide (m * 10 ^ e.toNat = (n : Int))
    else decide (m = (n : Int) * 10 ^ (-e).toNat)

/-- JS `x >= n` with NaN (and, soundly here, Infinity) yielding false. -/
def numGeNat (x : Option (Int × Int)) (n : Nat) : Bool :=
  match x with
  | none => false
  | some (m, e) =>
    if 0 ≤ e then decide ((n : Int) ≤ m * 10 ^ e.toNat)
    else decide ((n : Int) * 10 ^ (-e).toNat ≤ m)

/-- JS `x <= n` with NaN yielding false. -/
def numLeNat (x : Option (Int × Int)) (n : Nat) : Bool :=
  match x with
  | none => false
  | some (m, e) =>
    if 0 ≤ e then decide (m * 10 ^ e.toNat ≤ (n : Int))
    else decide (m ≤ (n : Int) * 10 ^ (-e).toNat)

/-- Embedding of the inner `isPrivateIp` helper: split on dots, require
exactly four fields, then test the numeric first two fields against
10 / 172.16-31 / 192.168.  No octet-range validation is performed. -/
def isPrivateIp (ip : List Char) : Bool :=
  let parts := (splitOnChar '.' ip).map jsNumber
  if parts.length ≠ 4 then false
  else
    let a := parts.headD none
    let b := parts.getD 1 none
    numEqNat a 10 || (numEqNat a 172 && numGeNat b 16 && numLeNat b 31) ||
      (numEqNat a 192 && numEqNat b 168)

/-- Remove one trailing dot (JS `replace(/\.$/, "")`). -/
def stripTrailingDot (s : List Char) : List Char :=
  match s.reverse with
  | '.' :: rest => rest.reverse
  | _ => s

/-- Embedding of the inner `guessDomain` helper.  The reverse-DNS shell
call (`dig -x ip +short` via `execSync`) is abstracted as the oracle
`rdns`: `none` models a thrown exception, `some out` models the captured
stdout. -/
def guessDomain (rdns : List Char → Option (List Char)) (ip : List Char) :
    Option (List Char) :=
  if startsWithChars "173.194.".toList ip || startsWithChars "74.125.".toList ip then
    some "google.com".toList
  else if startsWithChars "157.240.".toList ip then some "facebook.com".toList
  else if startsWithChars "69.171.".toList ip || startsWithChars "31.13.".toList ip then
    some "facebook.com".toList
  else if startsWithChars "52.".toList ip || startsWithChars "54.".toList ip ||
      startsWithChars "3.".toList ip then
    some "amazonaws.com".toList
  else if startsWithChars "104.244.42.".toList ip then some "twitter.com".toList
  else if startsWithChars "151.101.".toList ip then some "fastly.net".toList
  else if startsWithChars "8.8.8.".toList ip || startsWithChars "8.34.208.".toList ip ||
      startsWithChars "8.35.200.".toList ip then
    some "google-dns".toList
  else if isPrivateIp ip then none
  else
    match rdns ip with
    | none => none
    | some out =>
      let t := jsTrim out
      if t = [] then none else some (stripTrailingDot t)

/-- Address scope as stored in the `type` field. -/
inductive IpScope where
  | privateScope
  | publicScope
deriving DecidableEq, Repr

/-- One host record: `{ip, host, type}`. -/
structure HostRecord where
  ip : List Char
  host : Option (List Char)
  type : IpScope
deriving DecidableEq, Repr

/-- One step of the `reduce` inside `getIpHostPairs`: split the line on
tabs, skip an empty or already-recorded IP, otherwise append a record with
the classified scope and the resolved host (explicit query name first,
otherwise the heuristics of `guessDomain`). -/
def ipStep (rdns : List Char → Option (List Char)) (acc : List HostRecord)
    (line : List Char) : List HostRecord :=
  let parts := splitOnChar '\t' line
  let ip := parts.headD []
  let rawHost := parts[1]?
  if ip ≠ [] ∧ ¬ acc.any (fun item => decide (item.ip = ip)) then
    let cleanHost := trimToOption rawHost
    let finalHost :=
      match cleanHost with
      | some h => some h
      | none => guessDomain rdns ip
    acc ++ [⟨ip, finalHost, if isPrivateIp ip then .privateScope else .publicScope⟩]
  else acc

/-- Embedding of `getIpHostPairs` applied to the external `tshark` output:
trim, split into lines, and run the `reduce`. -/
def getIpHostPairs (rdns : List Char → Option (List Char)) (text : List Char) :
    List HostRecord :=
  (splitOnChar '\n' (jsTrim text)).foldl (ipStep rdns) []

/-- Spec-side RFC1918 membership: the address must be exactly four
dot-separated decimal octets, each a nonempty digit string of value at
most 255, lying in 10.0.0.0/8, 172.16.0.0/12 or 192.168.0.0/16; any other
string is not private. -/
def rfc1918Private (ip : List Char) : Bool :=
  match splitOnChar '.' ip with
  | [a, b, c, d] =>
    (decide (a ≠ []) && a.all Char.isDigit && decide (digitsToNat a ≤ 255)) &&
    (decide (b ≠ []) && b.all Char.isDigit && decide (digitsToNat b ≤ 255)) &&
    (decide (c ≠ []) && c.all Char.isDigit && decide (digitsToNat c ≤ 255)) &&
    (decide (d ≠ []) && d.all Char.isDigit && decide (digitsToNat d ≤ 255)) &&
    (decide (digitsToNat a = 10) ||
     (decide (digitsToNat a = 172) && decide (16 ≤ digitsToNat b) &&
      decide (digitsToNat b ≤ 31)) ||
     (decide (digitsToNat a = 192) && decide (digitsToNat b = 168)))
  | _ => false

/-! ## Protocol-hierarchy parser (src/class/PCAPAnalyzer.ts, getProtocolHierarchy)

The JS code mutates a shared `children` array through stack references: a
new node is pushed into the current stack top's children and onto the
stack, and later lines extend its children through the stack entry.  The
embedding is the standard purely functional rendering of that mutation: a
node is attached to its parent frame when its own frame is popped, which
yields the same children lists in the same order (children are popped in
source order, exactly the order the JS code pushed them). -/

/-- One matched report line: captured indentation width, protocol token,
frame and byte counters. -/
structure ProtoEntry where
  indent : Nat
  protocol : List Char
  frames : Nat
  bytes : Nat
deriving DecidableEq, Repr

/-- A protocol tree node (the JS `ProtoNode` minus nothing: `protocol`,
`frames`, `bytes`, ordered `children`). -/
inductive ProtoNode where
  | mk (protocol : List Char) (frames : Nat) (bytes : Nat) (children : List ProtoNode)
deriving Repr

/-- Children accessor. -/
def ProtoNode.children : ProtoNode → List ProtoNode
  | .mk _ _ _ cs => cs

/-- Embedding of the line regular expression
`^(\s*)([^\s]+)\s+frames:(\d+)\s+bytes:(\d+)`.  Anchored at the start;
each greedy character-class run is followed by a token from a disjoint
character set, so the match is deterministic and no backtracking can
succeed: the whitespace run, the non-whitespace token, the whitespace gap,
the literal `frames:`, the digit run, another gap, the literal `bytes:`,
and a final digit run (trailing text is ignored). -/
def parseProtoLine (line : List Char) : Option ProtoEntry :=
  let ws := line.takeWhile jsWs
  let r1 := line.dropWhile jsWs
  let tok := r1.takeWhile (fun c => !jsWs c)
  let r2 := r1.dropWhile (fun c => !jsWs c)
  if tok = [] then none
  else if r2.takeWhile jsWs = [] then none
  else
    match dropLit "frames:".toList (r2.dropWhile jsWs) with
    | none => none
    | some r4 =>
      let ds1 := r4.takeWhile Char.isDigit
      if ds1 = [] then none
      else
        let r5 := r4.dropWhile Char.isDigit
        if r5.takeWhile jsWs = [] then none
        else
          match dropLit "bytes:".toList (r5.dropWhile jsWs) with
          | none => none
          | some r7 =>
            let ds2 := r7.takeWhile Char.isDigit
            if ds2 = [] then none
            else some ⟨ws.length, tok, digitsToNat ds1, digitsToNat ds2⟩

/-- The matched entries of the report text: keep lines containing both
`frames:` and `bytes:`, then keep those matching the pattern (the JS
`filter` plus the in-loop `continue` on a failed match). -/
def protoEntries (text : List Char) : List ProtoEntry :=
  ((splitOnChar '\n' text).filter
      (fun l => containsSub "frames:".toList l && containsSub "bytes:".toList l)).filterMap
    parseProtoLine

/-- An open stack frame of the tree builder: the JS `{indent, node}` pair,
with the children accumulated so far (extended on pop, see the section
comment). -/
structure BuildFrame where
  indent : Int
  protocol : List Char
  frames : Nat
  bytes : Nat
  children : List ProtoNode

/-- Close a frame into a finished node. -/
def closeFrame (f : BuildFrame) : ProtoNode :=
  .mk f.protocol f.frames f.bytes f.children

/-- Append finished nodes to a frame's children. -/
def attachAll (f : BuildFrame) (ns : List ProtoNode) : BuildFrame :=
  { f with children := f.children ++ ns }

/-- Fresh frame for a matched line. -/
def mkBuildFrame (e : ProtoEntry) : BuildFrame :=
  ⟨(e.indent : Int), e.protocol, e.frames, e.bytes, []⟩

/-- The sentinel root frame `{indent: -1, node: root}`. -/
def rootFrame : BuildFrame := ⟨-1, "root".toList, 0, 0, []⟩

/-- Pop loop carrying the most recently closed node down the stack: the
carried node is attached to the next frame, which is closed and carried in
turn while its indent is still `≥` the current line's indent.  An empty
stack is returned as is (unreachable: the sentinel at indent `-1` is never
popped, as every line indent is a natural number). -/
def popCarry (n : ProtoNode) (ind : Nat) : List BuildFrame → List BuildFrame
  | [] => []
  | g :: rest =>
    let g2 := attachAll g [n]
    if (ind : Int) ≤ g2.indent then popCarry (closeFrame g2) ind rest
    else g2 :: rest

/-- The JS `while (stack.length && stack[stack.length-1].indent >= indent)
stack.pop()` loop, in attach-on-pop form. -/
def popAttach (stack : List BuildFrame) (ind : Nat) : List BuildFrame :=
  match stack with
  | [] => []
  | f :: rest =>
    if (ind : Int) ≤ f.indent then popCarry (closeFrame f) ind rest
    else f :: rest

/-- Process one matched line: pop, then push the new frame (the JS child
`push` into the stack top happens at pop time in this embedding). -/
def buildStep (stack : List BuildFrame) (e : ProtoEntry) : List BuildFrame :=
  mkBuildFrame e :: popAttach stack e.indent

/-- Fold the final stack down to the sentinel root, attaching every still
open frame to its parent, and return the root's children. -/
def collapseFrom (f : BuildFrame) : List BuildFrame → List ProtoNode
  | [] => f.children
  | g :: rest => collapseFrom (attachAll g [closeFrame f]) rest

/-- Collapse a whole stack (empty stack: no nodes). -/
def collapseStack : List BuildFrame → List ProtoNode
  | [] => []
  | f :: rest => collapseFrom f rest

/-- The stack-based tree build over the matched entries, returning
`root.children`. -/
def buildForest (entries : List ProtoEntry) : List ProtoNode :=
  collapseStack (entries.foldl buildStep [rootFrame])

/-- Embedding of `getProtocolHierarchy` applied to the external `tshark`
report text (the text is split without trimming, faithful to the JS). -/
def getProtocolHierarchy (text : List Char) : List ProtoNode :=
  buildForest (protoEntries text)

/-- takeWhile never lengthens a list. -/
theorem takeWhileLenLe {α : Type} (p : α → Bool) :
    ∀ l : List α, (l.takeWhile p).length ≤ l.length
  | [] => Nat.le_refl _
  | a :: l => by
    rw [List.takeWhile_cons]
    cases p a with
    | false => exact Nat.zero_le _
    | true => simpa using Nat.succ_le_succ (takeWhileLenLe p l)

/-- dropWhile never lengthens a list. -/
theorem dropWhileLenLe {α : Type} (p : α → Bool) :
    ∀ l : List α, (l.dropWhile p).length ≤ l.length
  | [] => Nat.le_refl _
  | a :: l => by
    rw [List.dropWhile_cons]
    cases p a with
    | false => simp
    | true => simpa using Nat.le_succ_of_le (dropWhileLenLe p l)

/-- Spec-side declarative forest: a node's children are exactly the run of
following entries with strictly larger indentation, so a node's parent is
the nearest preceding entry with strictly smaller indentation and entries
with no such predecessor are roots, in source order. -/
def spanForest : List ProtoEntry → List ProtoNode
  | [] => []
  | e :: rest =>
    ProtoNode.mk e.protocol e.frames e.bytes
        (spanForest (rest.takeWhile fun x => decide (e.indent < x.indent)))
      :: spanForest (rest.dropWhile fun x => decide (e.indent < x.indent))
termination_by l => l.length
decreasing_by
  · exact Nat.lt_succ_of_le (takeWhileLenLe _ rest)
  · exact Nat.lt_succ_of_le (dropWhileLenLe _ rest)

/-- Depth of an entry per the spec: scanning backward over the indents of
the preceding matched lines (most recent first), count one ancestor each
time a strictly smaller indentation is found, continuing the scan from
that ancestor's indentation. -/
def chainDepth : List Nat → Nat → Nat
  | [], _ => 0
  | j :: rest, ind => if j < ind then chainDepth rest j + 1 else chainDepth rest ind

/-- The expected pre-order listing: each entry tagged with its spec depth,
in source order. -/
def depthTagged (prev : List Nat) : List ProtoEntry → List (Nat × List Char × Nat × Nat)
  | [] => []
  | e :: rest =>
    (chainDepth prev e.indent, e.protocol, e.frames, e.bytes)
      :: depthTagged (e.indent :: prev) rest

/-- Pre-order traversal of a forest with depth tags. -/
def flattenDepth (d : Nat) : List ProtoNode → List (Nat × List Char × Nat × Nat)
  | [] => []
  | ProtoNode.mk p f b cs :: rest =>
    (d, p, f, b) :: (flattenDepth (d + 1) cs ++ flattenDepth d rest)

/-! ## Stream reconstructor (src/class/PCAPAnalyzer.ts, getTcpStreams /
getUdpStreams)

Each `tshark` invocation is abstracted: the conversation listing is the
`convOutput` text parameter, and the per-index follow invocation is the
oracle `follow : Nat → Except Unit (List Char)` (`error` models a thrown
shell error, `ok` the captured text).  The JS `for` loop has no per-index
try/catch, so an error propagates out of the whole probe. -/

/-- One reconstructed stream record.  The JS optional endpoint fields are
always assigned with `|| ""`, so they are plain strings here. -/
structure StreamRecord where
  stream_id : Nat
  ip_src : List Char
  sport : List Char
  ip_dst : List Char
  dport : List Char
  text : List Char
deriving DecidableEq, Repr

/-- Character class `[\d.]`. -/
def ipClassChar (c : Char) : Bool := c.isDigit || c = '.'

/-- Attempt the endpoint pattern `<label>\s+([\d.]+):(\d+)` at the start
of `s`.  Every greedy run is followed by a character outside its class, so
the attempt is deterministic (no backtracking can succeed). -/
def tryEndpointAt (label : List Char) (s : List Char) : Option (List Char × List Char) :=
  match dropLit label s with
  | none => none
  | some r1 =>
    if r1.takeWhile jsWs = [] then none
    else
      let r2 := r1.dropWhile jsWs
      let run := r2.takeWhile ipClassChar
      if run = [] then none
      else
        match r2.dropWhile ipClassChar with
        | ':' :: r4 =>
          let ds := r4.takeWhile Char.isDigit
          if ds = [] then none else some (run, ds)
        | _ => none

/-- JS `text.match(/<label>\s+([\d.]+):(\d+)/)`: leftmost search, trying
the pattern at each position in turn. -/
def searchEndpoint (label : List Char) : List Char → Option (List Char × List Char)
  | [] => tryEndpointAt label []
  | c :: rest =>
    match tryEndpointAt label (c :: rest) with
    | some r => some r
    | none => searchEndpoint label rest

/-- Build the record for one followed stream: extract the `Node 0:` and
`Node 1:` endpoints, defaulting every unmatched field to the empty string
(JS `match?.[k] || ""`). -/
def mkStreamRecord (idx : Nat) (followText : List Char) : StreamRecord :=
  let node0 := searchEndpoint "Node 0:".toList followText
  let node1 := searchEndpoint "Node 1:".toList followText
  ⟨idx,
   (node0.map Prod.fst).getD [],
   (node0.map Prod.snd).getD [],
   (node1.map Prod.fst).getD [],
   (node1.map Prod.snd).getD [],
   followText⟩

/-- The sequential follow loop starting at index `i` with `count` indices
remaining: a thrown follow invocation aborts the rest of the loop. -/
def tcpLoop (follow : Nat → Except Unit (List Char)) :
    Nat → Nat → Except Unit (List StreamRecord)
  | _, 0 => .ok []
  | i, count + 1 =>
    match follow i with
    | .error e => .error e
    | .ok txt =>
      match tcpLoop follow (i + 1) count with
      | .error e => .error e
      | .ok rest => .ok (mkStreamRecord i txt :: rest)

/-- Number of enumerated conversations: lines of the listing containing
the pairing marker. -/
def tcpConvCount (convOutput : List Char) : Nat :=
  ((splitOnChar '\n' convOutput).filter (fun l => containsSub "<->".toList l)).length

/-- Embedding of `getTcpStreams`. -/
def getTcpStreams (convOutput : List Char) (follow : Nat → Except Unit (List Char)) :
    Except Unit (List StreamRecord) :=
  tcpLoop follow 0 (tcpConvCount convOutput)

/-- Embedding of `getUdpStreams`: the function body begins with an
unconditional `return [];`, so the conversation-listing and follow logic
below it is unreachable and the probe always yields the empty list. -/
def getUdpStreams (_convOutput : List Char)
    (_follow : Nat → Except Unit (List Char)) : List StreamRecord :=
  []

/-! ## Intrusion-detection probe and orchestrator
(src/class/PCAPAnalyzer.ts, getSuricataAnalysis / initialize / getResult) -/

/-- The four-field suricata log bundle. -/
structure SuricataResult where
  eve : Option (List Char)
  fast : Option (List Char)
  stats : Option (List Char)
  suricata : Option (List Char)
deriving DecidableEq, Repr

/-- Embedding of `getSuricataAnalysis`: the runner invocation may throw
(`runOk = false` takes the catch path, yielding the all-absent bundle);
each log read carries `.catch(() => null)` and is therefore a total
`Option` input. -/
def getSuricataAnalysis (runOk : Bool)
    (eve fast stats log : Option (List Char)) : SuricataResult :=
  if runOk then ⟨eve, fast, stats, log⟩ else ⟨none, none, none, none⟩

/-- Outcome of each probe as seen by `Promise.all` inside `initialize`:
the five parser probes and the two stream probes have no internal catch,
so each is an `Except`; the suricata probe catches internally and is
total. -/
structure ProbeOutcomes where
  capinfos : Except Unit (List (List Char × List Char))
  ip_host_pairs : Except Unit (List HostRecord)
  mac_addresses : Except Unit (List MacRecord)
  protocol_hierarchy : Except Unit (List ProtoNode)
  suricata : SuricataResult
  tcp_streams : Except Unit (List StreamRecord)
  udp_streams : Except Unit (List StreamRecord)

/-- The frozen aggregate result object. -/
structure AnalysisResult where
  capinfos : List (List Char × List Char)
  ip_host_pairs : List HostRecord
  mac_addresses : List MacRecord
  protocol_hierarchy : List ProtoNode
  suricata : SuricataResult
  tcp_streams : List StreamRecord
  udp_streams : List StreamRecord

/-- Embedding of `initialize`: `Promise.all` resolves only if every probe
resolves; a single rejection rejects the combined promise, the
surrounding `try/catch` merely logs, and `this.result` stays `null`
(modeled as `none`). -/
def initResult (o : ProbeOutcomes) : Option AnalysisResult :=
  match o.capinfos, o.ip_host_pairs, o.mac_addresses, o.protocol_hierarchy,
      o.tcp_streams, o.udp_streams with
  | .ok c, .ok i, .ok m, .ok p, .ok t, .ok u =>
    some ⟨c, i, m, p, o.suricata, t, u⟩
  | _, _, _, _, _, _ => none

/-- Embedding of `getResult`: the method polls `this.result` every 100 ms
until it is non-null.  When `initialize` never populates the field the
loop never terminates; a call that never returns is modeled as `none`. -/
def getResultModel (o : ProbeOutcomes) : Option AnalysisResult :=
  initResult o

/-! ## Rule-corpus filter (src/unnamed/part_000, generateCustomRules)

The function reads `rules/all.rules` and writes `rules/custom.rules`; the
embedding maps the corpus text and the selected-ID list to the written
text.  A JS `null` selection behaves as the empty list and is not modeled
separately. -/

/-- The block-delimiter tag. -/
def idTag : List Char := "# ID:".toList

/-- JS `line.startsWith("# ID:")`. -/
def isTagLine (l : List Char) : Bool := startsWithChars idTag l

/-- JS `String.prototype.replace` with a string pattern: replace the first
occurrence only. -/
def replaceFirst (needle repl : List Char) : List Char → List Char
  | [] =>
    (match dropLit needle [] with
     | some after => repl ++ after
     | none => [])
  | c :: rest =>
    match dropLit needle (c :: rest) with
    | some after => repl ++ after
    | none => c :: replaceFirst needle repl rest

/-- JS `line.replace("# ID:", "").trim()`. -/
def ruleIdOf (l : List Char) : List Char := jsTrim (replaceFirst idTag [] l)

/-- Loop state: `filteredBlocks` (already joined with newlines, as the JS
pushes `currentBlock.join("\n")`), `currentBlock` lines, `includeBlock`. -/
structure FiltState where
  blocks : List (List Char)
  cur : List (List Char)
  inc : Bool

/-- One iteration of the `for (const line of lines)` loop. -/
def filtStep (selectedIds : List (List Char)) (st : FiltState) (line : List Char) :
    FiltState :=
  if isTagLine line then
    ⟨(if st.cur ≠ [] ∧ st.inc then st.blocks ++ [joinSep ['\n'] st.cur] else st.blocks),
     [line], decide (ruleIdOf line ∈ selectedIds)⟩
  else ⟨st.blocks, st.cur ++ [line], st.inc⟩

/-- The post-loop flush of the last block. -/
def finalizeBlocks (st : FiltState) : List (List Char) :=
  if st.cur ≠ [] ∧ st.inc then st.blocks ++ [joinSep ['\n'] st.cur] else st.blocks

/-- The filtered block strings for a line list. -/
def filteredBlocks (selectedIds : List (List Char)) (lines : List (List Char)) :
    List (List Char) :=
  finalizeBlocks (lines.foldl (filtStep selectedIds) ⟨[], [], false⟩)

/-- Embedding of `generateCustomRules` as corpus text to written text: an
empty selection writes the corpus unchanged; otherwise the filtered
blocks are joined with a blank line between blocks. -/
def generateCustomRules (allRules : List Char) (selectedIds : List (List Char)) :
    List Char :=
  if selectedIds.isEmpty then allRules
  else joinSep ['\n', '\n'] (filteredBlocks selectedIds (splitOnChar '\n' allRules))

/-- Spec-side block decomposition (claim C8 wording): a block is an ID-tag
line followed by its body lines up to the next tag line or the end; lines
before the first tag belong to no block; keep, in order, exactly the
blocks whose trimmed ID is selected. -/
def specBlocks (selectedIds : List (List Char)) : List (List Char) → List (List (List Char))
  | [] => []
  | l :: rest =>
    if isTagLine l then
      (if ruleIdOf l ∈ selectedIds then [l :: rest.takeWhile (fun x => !isTagLine x)]
       else []) ++
        specBlocks selectedIds (rest.dropWhile (fun x => !isTagLine x))
    else specBlocks selectedIds rest
termination_by l => l.length
decreasing_by
  · simp only [List.length_cons]
    exact Nat.lt_succ_of_le (dropWhileLenLe _ _)
  · simp only [List.length_cons]
    exact Nat.lt_succ_of_le (Nat.le_refl _)

/-- Append one trailing empty line to every block except the last. -/
def padAllButLast : List (List (List Char)) → List (List (List Char))
  | [] => []
  | [b] => [b]
  | b :: q :: rest => (b ++ [[]]) :: padAllButLast (q :: rest)

/-- Concatenate blocks with one empty separator line between them (the
line image of joining with a blank line). -/
def interleaveBlank : List (List (List Char)) → List (List Char)
  | [] => []
  | [b] => b
  | b :: q :: rest => b ++ [[]] ++ interleaveBlank (q :: rest)

/-! ### Generic list helper lemmas -/

theorem memTakeWhileSat {α : Type} (p : α → Bool) :
    ∀ {l : List α} {x : α}, x ∈ l.takeWhile p → p x = true := by
  intro l
  induction l with
  | nil => intro x h; simp [List.takeWhile] at h
  | cons a l ih =>
    intro x h
    rw [List.takeWhile_cons] at h
    by_cases ha : p a = true
    · rw [if_pos ha] at h
      rcases List.mem_cons.mp h with h1 | h2
      · rwa [h1]
      · exact ih h2
    · rw [if_neg ha] at h; simp at h

theorem memTakeWhileMem {α : Type} {p : α → Bool} :
    ∀ {l : List α} {x : α}, x ∈ l.takeWhile p → x ∈ l := by
  intro l
  induction l with
  | nil => intro x h; simp [List.takeWhile] at h
  | cons a l ih =>
    intro x h
    rw [List.takeWhile_cons] at h
    by_cases ha : p a = true
    · rw [if_pos ha] at h
      rcases List.mem_cons.mp h with h1 | h2
      · exact h1 ▸ List.mem_cons_self _ _
      · exact List.mem_cons_of_mem _ (ih h2)
    · rw [if_neg ha] at h; simp at h

theorem memDropWhileMem {α : Type} {p : α → Bool} :
    ∀ {l : List α} {x : α}, x ∈ l.dropWhile p → x ∈ l := by
  intro l
  induction l with
  | nil => intro x h; simp [List.dropWhile] at h
  | cons a l ih =>
    intro x h
    rw [List.dropWhile_cons] at h
    by_cases ha : p a = true
    · rw [if_pos ha] at h
      exact List.mem_cons_of_mem _ (ih h)
    · rw [if_neg ha] at h; exact h

theorem takeWhileAllPos {α : Type} {p : α → Bool} :
    ∀ {l : List α}, (∀ x ∈ l, p x = true) → l.takeWhile p = l := by
  intro l
  induction l with
  | nil => intro _; rfl
  | cons a l ih =>
    intro h
    rw [List.takeWhile_cons, if_pos (h a (List.mem_cons_self _ _))]
    rw [ih (fun x hx => h x (List.mem_cons_of_mem _ hx))]

theorem dropWhileAllPos {α : Type} {p : α → Bool} :
    ∀ {l : List α}, (∀ x ∈ l, p x = true) → l.dropWhile p = [] := by
  intro l
  induction l with
  | nil => intro _; rfl
  | cons a l ih =>
    intro h
    rw [List.dropWhile_cons, if_pos (h a (List.mem_cons_self _ _))]
    exact ih (fun x hx => h x (List.mem_cons_of_mem _ hx))

theorem takeWhileAppendPos {α : Type} {p : α → Bool} :
    ∀ {xs : List α} (ys : List α), (∀ x ∈ xs, p x = true) →
      (xs ++ ys).takeWhile p = xs ++ ys.takeWhile p := by
  intro xs
  induction xs with
  | nil => intro ys _; rfl
  | cons a l ih =>
    intro ys h
    rw [List.cons_append, List.takeWhile_cons, if_pos (h a (List.mem_cons_self _ _))]
    rw [ih ys (fun x hx => h x (List.mem_cons_of_mem _ hx))]
    rfl

theorem dropWhileAppendPos {α : Type} {p : α → Bool} :
    ∀ {xs : List α} (ys : List α), (∀ x ∈ xs, p x = true) →
      (xs ++ ys).dropWhile p = ys.dropWhile p := by
  intro xs
  induction xs with
  | nil => intro ys _; rfl
  | cons a l ih =>
    intro ys h
    rw [List.cons_append, List.dropWhile_cons, if_pos (h a (List.mem_cons_self _ _))]
    exact ih ys (fun x hx => h x (List.mem_cons_of_mem _ hx))

/-! ### split/join lemmas -/

theorem splitNeNil (sep : Char) : ∀ s : List Char, splitOnChar sep s ≠ [] := by
  intro s
  cases s with
  | nil => simp [splitOnChar]
  | cons c rest =>
    simp only [splitOnChar]
    by_cases hc : c = sep
    · simp [hc]
    · simp only [if_neg hc]
      cases splitOnChar sep rest with
      | nil => simp
      | cons p tp => simp

theorem splitConsSep (sep : Char) (s : List Char) :
    splitOnChar sep (sep :: s) = [] :: splitOnChar sep s := by
  simp [splitOnChar]

theorem splitConsNoSep (sep : Char) (c : Char) (s : List Char) (hc : c ≠ sep) :
    splitOnChar sep (c :: s) =
      (c :: (splitOnChar sep s).headD []) :: (splitOnChar sep s).tail := by
  simp only [splitOnChar, if_neg hc]
  cases h : splitOnChar sep s with
  | nil => exact absurd h (splitNeNil sep s)
  | cons p tp => simp

theorem splitNoSep (sep : Char) : ∀ xs : List Char, sep ∉ xs → splitOnChar sep xs = [xs] := by
  intro xs
  induction xs with
  | nil => intro _; rfl
  | cons c rest ih =>
    intro h
    have hc : c ≠ sep := fun e => h (by rw [← e]; exact List.mem_cons_self _ _)
    have hr : sep ∉ rest := fun hm => h (List.mem_cons_of_mem _ hm)
    rw [splitConsNoSep sep c rest hc, ih hr]
    rfl

theorem splitAppendSep (sep : Char) : ∀ xs rest : List Char, sep ∉ xs →
    splitOnChar sep (xs ++ sep :: rest) = xs :: splitOnChar sep rest := by
  intro xs
  induction xs with
  | nil =>
    intro rest _
    simp only [List.nil_append]
    exact splitConsSep sep rest
  | cons c xs ih =>
    intro rest h
    have hc : c ≠ sep := fun e => h (by rw [← e]; exact List.mem_cons_self _ _)
    have hx : sep ∉ xs := fun hm => h (List.mem_cons_of_mem _ hm)
    rw [List.cons_append, splitConsNoSep sep c _ hc, ih rest hx]
    rfl

theorem memSplitNoSep (sep : Char) : ∀ (s : List Char) (p : List Char),
    p ∈ splitOnChar sep s → sep ∉ p := by
  intro s
  induction s with
  | nil =>
    intro p hp
    simp only [splitOnChar, List.mem_singleton] at hp
    simp [hp]
  | cons c rest ih =>
    intro p hp
    by_cases hc : c = sep
    · subst hc
      rw [splitConsSep] at hp
      rcases List.mem_cons.mp hp with h1 | h2
      · simp [h1]
      · exact ih p h2
    · rw [splitConsNoSep sep c rest hc] at hp
      rcases List.mem_cons.mp hp with h1 | h2
      · subst h1
        intro hmem
        rcases List.mem_cons.mp hmem with h3 | h4
        · exact hc h3.symm
        · cases hh : splitOnChar sep rest with
          | nil => exact absurd hh (splitNeNil sep rest)
          | cons q tq =>
            rw [hh] at h4
            exact ih q (by rw [hh]; exact List.mem_cons_self _ _) h4
      · cases hh : splitOnChar sep rest with
        | nil => exact absurd hh (splitNeNil sep rest)
        | cons q tq =>
          rw [hh] at h2
          exact ih p (by rw [hh]; exact List.mem_cons_of_mem _ h2)

theorem joinSepConsCons (sep : List Char) (x y : List Char) (z : List (List Char)) :
    joinSep sep (x :: y :: z) = x ++ sep ++ joinSep sep (y :: z) := rfl

theorem joinSepSnoc (sep : List Char) : ∀ (b : List (List Char)) (last : List Char),
    b ≠ [] → joinSep sep (b ++ [last]) = joinSep sep b ++ sep ++ last := by
  intro b
  induction b with
  | nil => intro last h; exact absurd rfl h
  | cons x b ih =>
    intro last _
    cases b with
    | nil => rfl
    | cons y b2 =>
      have ih2 := ih last (by simp)
      simp only [List.cons_append] at ih2 ⊢
      rw [joinSepConsCons, joinSepConsCons, ih2]
      simp [List.append_assoc]

theorem splitJoinFull (sep : Char) : ∀ ls : List (List Char), ls ≠ [] →
    (∀ l ∈ ls, sep ∉ l) → splitOnChar sep (joinSep [sep] ls) = ls := by
  intro ls
  induction ls with
  | nil => intro h _; exact absurd rfl h
  | cons l ls ih =>
    intro _ hfree
    cases ls with
    | nil => exact splitNoSep sep l (hfree l (List.mem_cons_self _ _))
    | cons q ls2 =>
      rw [joinSepConsCons]
      have : l ++ [sep] ++ joinSep [sep] (q :: ls2) =
          l ++ sep :: joinSep [sep] (q :: ls2) := by simp
      rw [this, splitAppendSep sep l _ (hfree l (List.mem_cons_self _ _))]
      rw [ih (by simp) (fun x hx => hfree x (List.mem_cons_of_mem _ hx))]

theorem splitJoinBlock (sep : Char) : ∀ (ls : List (List Char)) (rest : List Char),
    ls ≠ [] → (∀ l ∈ ls, sep ∉ l) →
    splitOnChar sep (joinSep [sep] ls ++ sep :: rest) = ls ++ splitOnChar sep rest := by
  intro ls
  induction ls with
  | nil => intro rest h _; exact absurd rfl h
  | cons l ls ih =>
    intro rest _ hfree
    cases ls with
    | nil =>
      simpa using splitAppendSep sep l rest (hfree l (List.mem_cons_self _ _))
    | cons q ls2 =>
      rw [joinSepConsCons]
      have : l ++ [sep] ++ joinSep [sep] (q :: ls2) ++ sep :: rest =
          l ++ sep :: (joinSep [sep] (q :: ls2) ++ sep :: rest) := by simp
      rw [this, splitAppendSep sep l _ (hfree l (List.mem_cons_self _ _))]
      rw [ih rest (by simp) (fun x hx => hfree x (List.mem_cons_of_mem _ hx))]
      rfl

theorem interleaveHeadBlock (q : List (List Char)) (rest : List (List (List Char))) :
    ∃ w, interleaveBlank (q :: rest) = q ++ w := by
  cases rest with
  | nil => exact ⟨[], by simp [interleaveBlank]⟩
  | cons r rest2 =>
    exact ⟨[[]] ++ interleaveBlank (r :: rest2), by simp [interleaveBlank]⟩

theorem splitJoinBlocks : ∀ bs : List (List (List Char)),
    (∀ b ∈ bs, b ≠ []) → (∀ b ∈ bs, ∀ l ∈ b, '\n' ∉ l) → bs ≠ [] →
    splitOnChar '\n' (joinSep ['\n', '\n'] (bs.map (joinSep ['\n']))) =
      interleaveBlank bs := by
  intro bs
  induction bs with
  | nil => intro _ _ h; exact absurd rfl h
  | cons b bs ih =>
    intro hne hfree _
    cases bs with
    | nil =>
      simp only [List.map_cons, List.map_nil, interleaveBlank]
      show splitOnChar '\n' (joinSep ['\n'] b) = b
      exact splitJoinFull '\n' b (hne b (List.mem_cons_self _ _))
        (hfree b (List.mem_cons_self _ _))
    | cons q bs2 =>
      simp only [List.map_cons]
      rw [joinSepConsCons]
      have hsh : joinSep ['\n'] b ++ ['\n', '\n'] ++
          joinSep ['\n', '\n'] (joinSep ['\n'] q :: bs2.map (joinSep ['\n'])) =
          joinSep ['\n'] b ++ '\n' ::
            ('\n' :: joinSep ['\n', '\n'] (joinSep ['\n'] q :: bs2.map (joinSep ['\n']))) := by
        simp
      rw [hsh, splitJoinBlock '\n' b _ (hne b (List.mem_cons_self _ _))
        (hfree b (List.mem_cons_self _ _))]
      rw [splitConsSep]
      have ih2 := ih (fun x hx => hne x (List.mem_cons_of_mem _ hx))
        (fun x hx => hfree x (List.mem_cons_of_mem _ hx)) (by simp)
      simp only [List.map_cons] at ih2
      rw [ih2]
      show b ++ [] :: interleaveBlank (q :: bs2) = interleaveBlank (b :: q :: bs2)
      simp [interleaveBlank]

theorem filtRunEq (S : List (List Char)) :
    ∀ (lines : List (List Char)) (bs cur : List (List Char)) (inc : Bool),
    finalizeBlocks (lines.foldl (filtStep S) ⟨bs, cur, inc⟩) =
      bs ++
        (if cur ++ lines.takeWhile (fun x => !isTagLine x) ≠ [] ∧ inc = true then
           [joinSep ['\n'] (cur ++ lines.takeWhile (fun x => !isTagLine x))]
         else []) ++
        (specBlocks S (lines.dropWhile (fun x => !isTagLine x))).map (joinSep ['\n']) := by
  intro lines
  induction lines with
  | nil =>
    intro bs cur inc
    simp only [List.foldl_nil, List.takeWhile_nil, List.dropWhile_nil, List.append_nil,
      finalizeBlocks, specBlocks, List.map_nil]
    by_cases h : cur ≠ [] ∧ inc = true
    · rw [if_pos h, if_pos ⟨h.1, h.2⟩]
    · rw [if_neg h, if_neg h, List.append_nil]
  | cons l rest ih =>
    intro bs cur inc
    rw [List.foldl_cons]
    by_cases ht : isTagLine l = true
    · have hstep : filtStep S ⟨bs, cur, inc⟩ l =
          ⟨(if cur ≠ [] ∧ inc = true then bs ++ [joinSep ['\n'] cur] else bs), [l],
           decide (ruleIdOf l ∈ S)⟩ := by
        simp [filtStep, ht]
      rw [hstep, ih]
      have htk : (l :: rest).takeWhile (fun x => !isTagLine x) = [] :=
        List.takeWhile_cons_of_neg (by simp [ht])
      have hdr : (l :: rest).dropWhile (fun x => !isTagLine x) = l :: rest :=
        List.dropWhile_cons_of_neg (by simp [ht])
      rw [htk, hdr]
      have hsb : specBlocks S (l :: rest) =
          (if ruleIdOf l ∈ S then [l :: rest.takeWhile (fun x => !isTagLine x)]
           else []) ++
            specBlocks S (rest.dropWhile (fun x => !isTagLine x)) := by
        rw [specBlocks, if_pos ht]
      rw [hsb, List.append_nil]
      have hcnd : ([l] ++ rest.takeWhile (fun x => !isTagLine x) ≠ [] ∧
          decide (ruleIdOf l ∈ S) = true) ↔ (ruleIdOf l ∈ S) := by
        constructor
        · intro h; exact of_decide_eq_true h.2
        · intro h; exact ⟨by simp, decide_eq_true h⟩
      by_cases hm : ruleIdOf l ∈ S
      · rw [if_pos (hcnd.mpr hm), if_pos hm]
        by_cases hc : cur ≠ [] ∧ inc = true
        · rw [if_pos hc, if_pos hc]
          simp [List.append_assoc]
        · rw [if_neg hc, if_neg hc]
          simp [List.append_assoc]
      · rw [if_neg (fun h => hm (hcnd.mp h)), if_neg hm]
        by_cases hc : cur ≠ [] ∧ inc = true
        · rw [if_pos hc, if_pos hc]
          simp [List.append_assoc]
        · rw [if_neg hc, if_neg hc]
          simp [List.append_assoc]
    · have hf : isTagLine l = false := by
        cases h : isTagLine l with
        | false => rfl
        | true => exact absurd h ht
      have hstep : filtStep S ⟨bs, cur, inc⟩ l = ⟨bs, cur ++ [l], inc⟩ := by
        simp [filtStep, hf]
      rw [hstep, ih]
      have htk : (l :: rest).takeWhile (fun x => !isTagLine x) =
          l :: rest.takeWhile (fun x => !isTagLine x) :=
        List.takeWhile_cons_of_pos (by simp [hf])
      have hdr : (l :: rest).dropWhile (fun x => !isTagLine x) =
          rest.dropWhile (fun x => !isTagLine x) :=
        List.dropWhile_cons_of_pos (by simp [hf])
      rw [htk, hdr]
      have hre : cur ++ [l] ++ rest.takeWhile (fun x => !isTagLine x) =
          cur ++ l :: rest.takeWhile (fun x => !isTagLine x) := by simp
      rw [hre]

theorem isTagNil : isTagLine [] = false := rfl

theorem specBlocksDropPre (S : List (List Char)) : ∀ lines : List (List Char),
    specBlocks S (lines.dropWhile (fun x => !isTagLine x)) = specBlocks S lines := by
  intro lines
  induction lines with
  | nil => rfl
  | cons l rest ih =>
    by_cases ht : isTagLine l = true
    · rw [List.dropWhile_cons_of_neg (by simp [ht])]
    · have hf : isTagLine l = false := by
        cases h : isTagLine l with
        | false => rfl
        | true => exact absurd h ht
      rw [List.dropWhile_cons_of_pos (by simp [hf]), ih]
      conv_rhs => rw [specBlocks]
      rw [if_neg ht]

theorem filteredBlocksEq (S : List (List Char)) (lines : List (List Char)) :
    filteredBlocks S lines = (specBlocks S lines).map (joinSep ['\n']) := by
  unfold filteredBlocks
  rw [filtRunEq]
  have : ¬ (([] : List (List Char)) ++ lines.takeWhile (fun x => !isTagLine x) ≠ [] ∧
      (false : Bool) = true) := by simp
  rw [if_neg this, specBlocksDropPre]
  simp

theorem genCharacterization (c : List Char) (S : List (List Char)) (h : S ≠ []) :
    generateCustomRules c S =
      joinSep ['\n', '\n'] ((specBlocks S (splitOnChar '\n' c)).map (joinSep ['\n'])) := by
  unfold generateCustomRules
  rw [if_neg (by simpa using h), filteredBlocksEq]

theorem genEmptySel (c : List Char) : generateCustomRules c [] = c := rfl

theorem specBlocksShape (S : List (List Char)) : ∀ (n : Nat) (lines : List (List Char)),
    lines.length ≤ n → ∀ b ∈ specBlocks S lines,
      (∃ t body, b = t :: body ∧ isTagLine t = true ∧ ruleIdOf t ∈ S ∧
        ∀ x ∈ body, isTagLine x = false) ∧ ∀ x ∈ b, x ∈ lines := by
  intro n
  induction n with
  | zero =>
    intro lines hlen b hb
    have : lines = [] := List.length_eq_zero.mp (Nat.le_zero.mp hlen)
    subst this
    simp [specBlocks] at hb
  | succ n ih =>
    intro lines hlen b hb
    cases lines with
    | nil => simp [specBlocks] at hb
    | cons l rest =>
      by_cases ht : isTagLine l = true
      · rw [specBlocks, if_pos ht] at hb
        rcases List.mem_append.mp hb with h1 | h2
        · by_cases hm : ruleIdOf l ∈ S
          · rw [if_pos hm, List.mem_singleton] at h1
            subst h1
            refine ⟨⟨l, _, rfl, ht, hm, ?_⟩, ?_⟩
            · intro x hx
              have := memTakeWhileSat _ hx
              simpa using this
            · intro x hx
              rcases List.mem_cons.mp hx with h3 | h4
              · exact h3 ▸ List.mem_cons_self _ _
              · exact List.mem_cons_of_mem _ (memTakeWhileMem h4)
          · rw [if_neg hm] at h1
            simp at h1
        · have hlen2 : (rest.dropWhile (fun x => !isTagLine x)).length ≤ n :=
            Nat.le_trans (dropWhileLenLe _ rest) (Nat.le_of_succ_le_succ hlen)
          obtain ⟨hsh, hmem⟩ := ih _ hlen2 b h2
          exact ⟨hsh, fun x hx => List.mem_cons_of_mem _ (memDropWhileMem (hmem x hx))⟩
      · rw [specBlocks, if_neg ht] at hb
        obtain ⟨hsh, hmem⟩ := ih rest (Nat.le_of_succ_le_succ hlen) b hb
        exact ⟨hsh, fun x hx => List.mem_cons_of_mem _ (hmem x hx)⟩

theorem specBlocksNil (S : List (List Char)) : specBlocks S [] = [] := by
  rw [specBlocks]

theorem specBlocksAllNonTag (S : List (List Char)) : ∀ lines : List (List Char),
    (∀ l ∈ lines, isTagLine l = false) → specBlocks S lines = [] := by
  intro lines
  induction lines with
  | nil => intro _; exact specBlocksNil S
  | cons l rest ih =>
    intro h
    rw [specBlocks, if_neg (by simp [h l (List.mem_cons_self _ _)])]
    exact ih (fun x hx => h x (List.mem_cons_of_mem _ hx))

theorem specBlocksInterleave (S : List (List Char)) : ∀ bs : List (List (List Char)),
    (∀ b ∈ bs, ∃ t body, b = t :: body ∧ isTagLine t = true ∧ ruleIdOf t ∈ S ∧
      ∀ x ∈ body, isTagLine x = false) →
    specBlocks S (interleaveBlank bs) = padAllButLast bs := by
  intro bs
  induction bs with
  | nil => intro _; exact specBlocksNil S
  | cons b bs ih =>
    intro hsh
    obtain ⟨t, body, hb, htag, hmem, hbody⟩ := hsh b (List.mem_cons_self _ _)
    cases bs with
    | nil =>
      subst hb
      show specBlocks S (t :: body) = [t :: body]
      rw [specBlocks, if_pos htag, if_pos hmem,
        takeWhileAllPos (fun x hx => by simp [hbody x hx]),
        dropWhileAllPos (fun x hx => by simp [hbody x hx]), specBlocksNil]
      simp
    | cons q bs2 =>
      obtain ⟨tq, bodyq, hq, htq, _, _⟩ :=
        hsh q (List.mem_cons_of_mem _ (List.mem_cons_self _ _))
      obtain ⟨w, hw⟩ := interleaveHeadBlock q bs2
      have hil : interleaveBlank (b :: q :: bs2) =
          t :: (body ++ [[]] ++ interleaveBlank (q :: bs2)) := by
        subst hb
        show (t :: body) ++ [[]] ++ interleaveBlank (q :: bs2) =
          t :: (body ++ [[]] ++ interleaveBlank (q :: bs2))
        simp
      rw [hil, specBlocks, if_pos htag, if_pos hmem]
      have hpos : ∀ x ∈ body ++ [[]], (fun x => !isTagLine x) x = true := by
        intro x hx
        rcases List.mem_append.mp hx with h1 | h2
        · simp [hbody x h1]
        · rw [List.mem_singleton] at h2
          subst h2
          simp [isTagNil]
      have htk : (body ++ [[]] ++ interleaveBlank (q :: bs2)).takeWhile
          (fun x => !isTagLine x) = body ++ [[]] := by
        rw [takeWhileAppendPos _ hpos, hw, hq, List.cons_append,
          List.takeWhile_cons_of_neg (by simp [htq])]
        simp
      have hdr : (body ++ [[]] ++ interleaveBlank (q :: bs2)).dropWhile
          (fun x => !isTagLine x) = interleaveBlank (q :: bs2) := by
        rw [dropWhileAppendPos _ hpos, hw, hq, List.cons_append,
          List.dropWhile_cons_of_neg (by simp [htq])]
      rw [htk, hdr, ih (fun x hx => hsh x (List.mem_cons_of_mem _ hx))]
      subst hb
      show (t :: (body ++ [[]])) :: padAllButLast (q :: bs2) =
        padAllButLast ((t :: body) :: q :: bs2)
      simp [padAllButLast]

theorem padNeNil (q : List (List Char)) (bs : List (List (List Char))) :
    padAllButLast (q :: bs) ≠ [] := by
  cases bs with
  | nil => simp [padAllButLast]
  | cons r bs2 => simp [padAllButLast]

theorem joinSepConsNe (sep : List Char) (x : List Char) (ys : List (List Char))
    (h : ys ≠ []) : joinSep sep (x :: ys) = x ++ sep ++ joinSep sep ys := by
  cases ys with
  | nil => exact absurd rfl h
  | cons y z => rfl

theorem joinPadEq : ∀ bs : List (List (List Char)), (∀ b ∈ bs, b ≠ []) →
    joinSep ['\n', '\n'] ((padAllButLast bs).map (joinSep ['\n'])) =
      joinSep ['\n', '\n', '\n'] (bs.map (joinSep ['\n'])) := by
  intro bs
  induction bs with
  | nil => intro _; rfl
  | cons b bs ih =>
    intro hne
    cases bs with
    | nil => rfl
    | cons q bs2 =>
      have hsnoc : joinSep ['\n'] (b ++ [[]]) = joinSep ['\n'] b ++ ['\n'] := by
        rw [joinSepSnoc ['\n'] b [] (hne b (List.mem_cons_self _ _))]
        simp
      have hpadne : (padAllButLast (q :: bs2)).map (joinSep ['\n']) ≠ [] := by
        intro h
        exact padNeNil q bs2 (List.map_eq_nil_iff.mp h)
      have hmapne : (q :: bs2).map (joinSep ['\n']) ≠ [] := by simp
      show joinSep ['\n', '\n']
          (((b ++ [[]]) :: padAllButLast (q :: bs2)).map (joinSep ['\n'])) = _
      rw [List.map_cons, joinSepConsNe _ _ _ hpadne,
        ih (fun x hx => hne x (List.mem_cons_of_mem _ hx)), hsnoc]
      conv_rhs => rw [List.map_cons, joinSepConsNe _ _ _ hmapne]
      simp [List.append_assoc, List.map_cons]

theorem genSecondPass (c : List Char) (S : List (List Char)) (h : S ≠ []) :
    generateCustomRules (generateCustomRules c S) S =
      joinSep ['\n', '\n', '\n']
        ((specBlocks S (splitOnChar '\n' c)).map (joinSep ['\n'])) := by
  have hbs := specBlocksShape S (splitOnChar '\n' c).length (splitOnChar '\n' c)
    (Nat.le_refl _)
  rw [genCharacterization _ _ h, genCharacterization _ _ h]
  by_cases hnil : specBlocks S (splitOnChar '\n' c) = []
  · rw [hnil]
    simp only [List.map_nil]
    show joinSep ['\n', '\n']
      ((specBlocks S (splitOnChar '\n' (joinSep ['\n', '\n'] []))).map (joinSep ['\n'])) = _
    have h2 : splitOnChar '\n' (joinSep ['\n', '\n'] ([] : List (List Char))) = [[]] := rfl
    have h3 : ∀ l ∈ [([] : List Char)], isTagLine l = false := by
      intro l hl
      rw [List.mem_singleton] at hl
      rw [hl]
      exact isTagNil
    rw [h2, specBlocksAllNonTag S [[]] h3]
    rfl
  · have hshape : ∀ b ∈ specBlocks S (splitOnChar '\n' c),
        ∃ t body, b = t :: body ∧ isTagLine t = true ∧ ruleIdOf t ∈ S ∧
          ∀ x ∈ body, isTagLine x = false := fun b hb => (hbs b hb).1
    have hne : ∀ b ∈ specBlocks S (splitOnChar '\n' c), b ≠ [] := by
      intro b hb
      obtain ⟨t, body, hb2, _, _, _⟩ := hshape b hb
      rw [hb2]
      simp
    have hfree : ∀ b ∈ specBlocks S (splitOnChar '\n' c), ∀ l ∈ b, '\n' ∉ l := by
      intro b hb l hl
      exact memSplitNoSep '\n' c l ((hbs b hb).2 l hl)
    rw [splitJoinBlocks _ hne hfree hnil, specBlocksInterleave S _ hshape,
      joinPadEq _ hne]

theorem memInterleave : ∀ (bs : List (List (List Char))) (l : List Char),
    l ∈ interleaveBlank bs → l = [] ∨ ∃ b ∈ bs, l ∈ b := by
  intro bs
  induction bs with
  | nil => intro l hl; simp [interleaveBlank] at hl
  | cons b bs ih =>
    intro l hl
    cases bs with
    | nil => exact Or.inr ⟨b, List.mem_cons_self _ _, hl⟩
    | cons q bs2 =>
      have : l ∈ b ++ ([[]] ++ interleaveBlank (q :: bs2)) := by
        simpa [interleaveBlank, List.append_assoc] using hl
      rcases List.mem_append.mp this with h1 | h2
      · exact Or.inr ⟨b, List.mem_cons_self _ _, h1⟩
      · rcases List.mem_append.mp h2 with h3 | h4
        · rw [List.mem_singleton] at h3
          exact Or.inl h3
        · rcases ih l h4 with h5 | ⟨b2, hb2, hlb2⟩
          · exact Or.inl h5
          · exact Or.inr ⟨b2, List.mem_cons_of_mem _ hb2, hlb2⟩

theorem genOutputLines (c : List Char) (S : List (List Char)) (h : S ≠ []) :
    ∀ l ∈ splitOnChar '\n' (generateCustomRules c S),
      l = [] ∨ ∃ b ∈ specBlocks S (splitOnChar '\n' c), l ∈ b := by
  have hbs := specBlocksShape S (splitOnChar '\n' c).length (splitOnChar '\n' c)
    (Nat.le_refl _)
  rw [genCharacterization _ _ h]
  by_cases hnil : specBlocks S (splitOnChar '\n' c) = []
  · rw [hnil]
    intro l hl
    simp only [List.map_nil] at hl
    have : splitOnChar '\n' (joinSep ['\n', '\n'] ([] : List (List Char))) = [[]] := rfl
    rw [this, List.mem_singleton] at hl
    exact Or.inl hl
  · have hshape : ∀ b ∈ specBlocks S (splitOnChar '\n' c),
        ∃ t body, b = t :: body ∧ isTagLine t = true ∧ ruleIdOf t ∈ S ∧
          ∀ x ∈ body, isTagLine x = false := fun b hb => (hbs b hb).1
    have hne : ∀ b ∈ specBlocks S (splitOnChar '\n' c), b ≠ [] := by
      intro b hb
      obtain ⟨t, body, hb2, _, _, _⟩ := hshape b hb
      rw [hb2]
      simp
    have hfree : ∀ b ∈ specBlocks S (splitOnChar '\n' c), ∀ l ∈ b, '\n' ∉ l := by
      intro b hb l hl
      exact memSplitNoSep '\n' c l ((hbs b hb).2 l hl)
    rw [splitJoinBlocks _ hne hfree hnil]
    exact memInterleave _

theorem specBlocksCongr (S T : List (List Char)) : ∀ (n : Nat) (lines : List (List Char)),
    lines.length ≤ n →
    (∀ l ∈ lines, isTagLine l = true → (ruleIdOf l ∈ S ↔ ruleIdOf l ∈ T)) →
    specBlocks S lines = specBlocks T lines := by
  intro n
  induction n with
  | zero =>
    intro lines hlen _
    have : lines = [] := List.length_eq_zero.mp (Nat.le_zero.mp hlen)
    subst this
    rw [specBlocksNil, specBlocksNil]
  | succ n ih =>
    intro lines hlen hiff
    cases lines with
    | nil => rw [specBlocksNil, specBlocksNil]
    | cons l rest =>
      by_cases ht : isTagLine l = true
      · rw [specBlocks, if_pos ht]
        conv_rhs => rw [specBlocks]
        rw [if_pos ht]
        have hdrop : (rest.dropWhile (fun x => !isTagLine x)).length ≤ n :=
          Nat.le_trans (dropWhileLenLe _ rest) (Nat.le_of_succ_le_succ hlen)
        have hrec := ih _ hdrop (fun x hx htx =>
          hiff x (List.mem_cons_of_mem _ (memDropWhileMem hx)) htx)
        rw [hrec]
        by_cases hm : ruleIdOf l ∈ S
        · rw [if_pos hm, if_pos ((hiff l (List.mem_cons_self _ _) ht).mp hm)]
        · rw [if_neg hm, if_neg (fun hmT =>
            hm ((hiff l (List.mem_cons_self _ _) ht).mpr hmT))]
      · rw [specBlocks, if_neg ht]
        conv_rhs => rw [specBlocks]
        rw [if_neg ht]
        exact ih rest (Nat.le_of_succ_le_succ hlen) (fun x hx htx =>
          hiff x (List.mem_cons_of_mem _ hx) htx)

/-! ### Protocol-hierarchy proofs -/

/-- Entries strictly more indented than an `Int` bound (the stack pop
comparison, with the sentinel bound -1). -/
def entGt (b : Int) (x : ProtoEntry) : Bool := decide (b < (x.indent : Int))

theorem entGtNatPred (a : Nat) :
    entGt (a : Int) = (fun x : ProtoEntry => decide (a < x.indent)) := by
  funext x
  simp [entGt]

theorem attachAllNil (f : BuildFrame) : attachAll f [] = f := by
  cases f
  simp [attachAll]

theorem attachAllComp (f : BuildFrame) (ns ms : List ProtoNode) :
    attachAll (attachAll f ns) ms = attachAll f (ns ++ ms) := by
  cases f
  simp [attachAll]

theorem closeAttachMk (e : ProtoEntry) (ns : List ProtoNode) :
    closeFrame (attachAll (mkBuildFrame e) ns) =
      ProtoNode.mk e.protocol e.frames e.bytes ns := by
  simp [closeFrame, attachAll, mkBuildFrame]

theorem popAttachNoPop (f : BuildFrame) (S : List BuildFrame) (ind : Nat)
    (h : f.indent < (ind : Int)) : popAttach (f :: S) ind = f :: S := by
  show (if (ind : Int) ≤ f.indent then popCarry (closeFrame f) ind S else f :: S) = f :: S
  rw [if_neg (Int.not_le.mpr h)]

theorem buildStepNoPop (f : BuildFrame) (S : List BuildFrame) (e : ProtoEntry)
    (h : f.indent < (e.indent : Int)) :
    buildStep (f :: S) e = mkBuildFrame e :: f :: S := by
  unfold buildStep
  rw [popAttachNoPop f S e.indent h]

theorem popAttachPop (f g : BuildFrame) (S : List BuildFrame) (ind : Nat)
    (h : (ind : Int) ≤ f.indent) :
    popAttach (f :: g :: S) ind = popAttach (attachAll g [closeFrame f] :: S) ind := by
  show (if (ind : Int) ≤ f.indent then popCarry (closeFrame f) ind (g :: S)
      else f :: g :: S) = _
  rw [if_pos h]
  rfl

theorem buildStepPop (f g : BuildFrame) (S : List BuildFrame) (e : ProtoEntry)
    (h : (e.indent : Int) ≤ f.indent) :
    buildStep (f :: g :: S) e = buildStep (attachAll g [closeFrame f] :: S) e := by
  unfold buildStep
  rw [popAttachPop f g S e.indent h]

theorem collapseStackPop (f g : BuildFrame) (S : List BuildFrame) :
    collapseStack (f :: g :: S) = collapseStack (attachAll g [closeFrame f] :: S) := rfl

theorem spanForestNil : spanForest [] = [] := by
  rw [spanForest]

theorem spanForestCons (e : ProtoEntry) (rest : List ProtoEntry) :
    spanForest (e :: rest) =
      ProtoNode.mk e.protocol e.frames e.bytes
          (spanForest (rest.takeWhile fun x => decide (e.indent < x.indent)))
        :: spanForest (rest.dropWhile fun x => decide (e.indent < x.indent)) := by
  rw [spanForest]

theorem dropWhileHeadFalse {α : Type} (p : α → Bool) :
    ∀ (l : List α) (h : α) (t : List α), l.dropWhile p = h :: t → p h = false := by
  intro l
  induction l with
  | nil => intro h t he; simp at he
  | cons a l ih =>
    intro h t he
    rw [List.dropWhile_cons] at he
    by_cases hp : p a = true
    · rw [if_pos hp] at he
      exact ih h t he
    · rw [if_neg hp] at he
      have : a = h := (List.cons.injEq _ _ _ _).mp he |>.1
      rw [← this]
      cases hq : p a with
      | false => rfl
      | true => exact absurd hq hp

theorem takeWhileEqSelfOfDropNil {α : Type} {p : α → Bool} {l : List α}
    (h : l.dropWhile p = []) : l.takeWhile p = l := by
  have h2 := List.takeWhile_append_dropWhile (p := p) (l := l)
  rw [h, List.append_nil] at h2
  exact h2

theorem attachIndent (f : BuildFrame) (ns : List ProtoNode) :
    (attachAll f ns).indent = f.indent := rfl

theorem entGtMk (e : ProtoEntry) :
    entGt (mkBuildFrame e).indent = (fun x : ProtoEntry => decide (e.indent < x.indent)) :=
  entGtNatPred e.indent

theorem entGtMkIff (e x : ProtoEntry) :
    entGt (mkBuildFrame e).indent x = decide (e.indent < x.indent) := by
  have h2 : ((e.indent : Int) < (x.indent : Int)) ↔ (e.indent < x.indent) := Int.ofNat_lt
  simp [entGt, mkBuildFrame, h2]

theorem runSpan : ∀ (n : Nat) (l : List ProtoEntry), l.length ≤ n →
    ∀ (f : BuildFrame) (S : List BuildFrame),
    collapseStack (l.foldl buildStep (f :: S)) =
      collapseStack ((l.dropWhile (entGt f.indent)).foldl buildStep
        (attachAll f (spanForest (l.takeWhile (entGt f.indent))) :: S)) := by
  intro n
  induction n with
  | zero =>
    intro l hlen f S
    have hl : l = [] := List.length_eq_zero.mp (Nat.le_zero.mp hlen)
    subst hl
    simp only [List.takeWhile_nil, List.dropWhile_nil, spanForestNil, attachAllNil,
      List.foldl_nil]
  | succ n ih =>
    intro l hlen f S
    cases l with
    | nil =>
      simp only [List.takeWhile_nil, List.dropWhile_nil, spanForestNil, attachAllNil,
        List.foldl_nil]
    | cons e L =>
      by_cases hgt : f.indent < (e.indent : Int)
      · have hpe : entGt f.indent e = true := decide_eq_true hgt
        rw [List.foldl_cons, buildStepNoPop f S e hgt,
          ih L (Nat.le_of_succ_le_succ hlen) (mkBuildFrame e) (f :: S)]
        have hLsplit := List.takeWhile_append_dropWhile
          (p := entGt (mkBuildFrame e).indent) (l := L)
        cases houter : L.dropWhile (entGt (mkBuildFrame e).indent) with
        | nil =>
          have hinner : L.takeWhile (entGt (mkBuildFrame e).indent) = L :=
            takeWhileEqSelfOfDropNil houter
          rw [hinner]
          have hallE : ∀ x ∈ L, entGt (mkBuildFrame e).indent x = true := by
            intro x hx
            exact memTakeWhileSat _ (hinner ▸ hx)
          have hallF : ∀ x ∈ L, entGt f.indent x = true := by
            intro x hx
            exact decide_eq_true (lt_trans hgt (of_decide_eq_true (hallE x hx)))
          rw [List.takeWhile_cons_of_pos hpe, List.dropWhile_cons_of_pos hpe,
            takeWhileAllPos hallF, dropWhileAllPos hallF]
          simp only [List.foldl_nil]
          rw [spanForestCons, ← entGtMk, hinner, houter, spanForestNil,
            collapseStackPop, closeAttachMk]
        | cons h rest1 =>
          have hhp : entGt (mkBuildFrame e).indent h = false :=
            dropWhileHeadFalse _ L h rest1 houter
          have hhle : (h.indent : Int) ≤ (mkBuildFrame e).indent :=
            Int.not_lt.mp (of_decide_eq_false hhp)
          rw [List.foldl_cons,
            buildStepPop _ f S h (by rw [attachIndent]; exact hhle),
            ← List.foldl_cons,
            ih (h :: rest1) (Nat.le_trans (by rw [← houter]; exact dropWhileLenLe _ L)
              (Nat.le_of_succ_le_succ hlen)) _ S,
            attachIndent]
          have hallE : ∀ x ∈ L.takeWhile (entGt (mkBuildFrame e).indent),
              entGt (mkBuildFrame e).indent x = true := fun x hx => memTakeWhileSat _ hx
          have hallF : ∀ x ∈ L.takeWhile (entGt (mkBuildFrame e).indent),
              entGt f.indent x = true := by
            intro x hx
            exact decide_eq_true (lt_trans hgt (of_decide_eq_true (hallE x hx)))
          have hdropEq : (e :: L).dropWhile (entGt f.indent) =
              (h :: rest1).dropWhile (entGt f.indent) := by
            rw [List.dropWhile_cons_of_pos hpe]
            conv_lhs => rw [← hLsplit, houter]
            exact dropWhileAppendPos _ hallF
          have htakeEq : (e :: L).takeWhile (entGt f.indent) =
              e :: (L.takeWhile (entGt (mkBuildFrame e).indent) ++
                (h :: rest1).takeWhile (entGt f.indent)) := by
            rw [List.takeWhile_cons_of_pos hpe]
            conv_lhs => rw [← hLsplit, houter]
            rw [takeWhileAppendPos _ hallF]
          have hinner2tk : ((h :: rest1).takeWhile (entGt f.indent)).takeWhile
              (fun x : ProtoEntry => decide (e.indent < x.indent)) = [] := by
            cases hfh : entGt f.indent h with
            | false => rw [List.takeWhile_cons_of_neg (by simp [hfh])]; rfl
            | true =>
              rw [List.takeWhile_cons_of_pos hfh,
                List.takeWhile_cons_of_neg (by rw [← entGtMkIff]; simp [hhp])]
          have hinner2dr : ((h :: rest1).takeWhile (entGt f.indent)).dropWhile
              (fun x : ProtoEntry => decide (e.indent < x.indent)) =
              (h :: rest1).takeWhile (entGt f.indent) := by
            cases hfh : entGt f.indent h with
            | false => rw [List.takeWhile_cons_of_neg (by simp [hfh])]; rfl
            | true =>
              rw [List.takeWhile_cons_of_pos hfh,
                List.dropWhile_cons_of_neg (by rw [← entGtMkIff]; simp [hhp])]
          have hspan : spanForest ((e :: L).takeWhile (entGt f.indent)) =
              closeFrame (attachAll (mkBuildFrame e)
                  (spanForest (L.takeWhile (entGt (mkBuildFrame e).indent)))) ::
                spanForest ((h :: rest1).takeWhile (entGt f.indent)) := by
            rw [htakeEq, spanForestCons, closeAttachMk]
            rw [takeWhileAppendPos _ (by intro x hx; rw [← entGtMkIff]; exact hallE x hx)]
            rw [dropWhileAppendPos _ (by intro x hx; rw [← entGtMkIff]; exact hallE x hx)]
            rw [hinner2tk, hinner2dr, List.append_nil]
          rw [hdropEq, hspan]
          have hattach : attachAll f
              (closeFrame (attachAll (mkBuildFrame e)
                  (spanForest (L.takeWhile (entGt (mkBuildFrame e).indent)))) ::
                spanForest ((h :: rest1).takeWhile (entGt f.indent))) =
              attachAll (attachAll f [closeFrame (attachAll (mkBuildFrame e)
                  (spanForest (L.takeWhile (entGt (mkBuildFrame e).indent))))])
                (spanForest ((h :: rest1).takeWhile (entGt f.indent))) := by
            rw [attachAllComp]
            rfl
          rw [hattach]
      · have hpe : entGt f.indent e = false := by
          simp only [entGt, decide_eq_false_iff_not]
          exact hgt
        rw [List.takeWhile_cons_of_neg (by simp [hpe]),
          List.dropWhile_cons_of_neg (by simp [hpe]), spanForestNil, attachAllNil]

theorem entGtRoot (x : ProtoEntry) : entGt rootFrame.indent x = true := by
  have h2 : (-1 : Int) < (x.indent : Int) := by omega
  simp [entGt, rootFrame, h2]

/-- The stack-based builder computes exactly the declarative
nearest-smaller-indentation forest. -/
theorem buildForestEqSpan (l : List ProtoEntry) : buildForest l = spanForest l := by
  unfold buildForest
  rw [runSpan l.length l (Nat.le_refl _) rootFrame [],
    takeWhileAllPos (fun x _ => entGtRoot x), dropWhileAllPos (fun x _ => entGtRoot x),
    List.foldl_nil]
  show (attachAll rootFrame (spanForest l)).children = spanForest l
  simp [attachAll, rootFrame]

theorem chainDepthSkip : ∀ (js tail : List Nat) (ind : Nat), (∀ j ∈ js, ind ≤ j) →
    chainDepth (js ++ tail) ind = chainDepth tail ind := by
  intro js
  induction js with
  | nil => intro tail ind _; rfl
  | cons j js ih =>
    intro tail ind h
    show chainDepth (j :: (js ++ tail)) ind = chainDepth tail ind
    simp only [chainDepth, if_neg (Nat.not_lt.mpr (h j (List.mem_cons_self _ _)))]
    exact ih tail ind (fun x hx => h x (List.mem_cons_of_mem _ hx))

theorem depthTaggedAppend : ∀ (xs ys : List ProtoEntry) (p : List Nat),
    depthTagged p (xs ++ ys) =
      depthTagged p xs ++ depthTagged ((xs.map ProtoEntry.indent).reverse ++ p) ys := by
  intro xs
  induction xs with
  | nil => intro ys p; simp [depthTagged]
  | cons x xs ih =>
    intro ys p
    show (chainDepth p x.indent, x.protocol, x.frames, x.bytes)
        :: depthTagged (x.indent :: p) (xs ++ ys) = _
    rw [ih ys (x.indent :: p)]
    simp [depthTagged, List.append_assoc]

theorem flattenDepthNil (d : Nat) : flattenDepth d [] = [] := by
  rw [flattenDepth]

theorem flattenDepthCons (d : Nat) (p : List Char) (fr b : Nat) (cs rest : List ProtoNode) :
    flattenDepth d (ProtoNode.mk p fr b cs :: rest) =
      (d, p, fr, b) :: (flattenDepth (d + 1) cs ++ flattenDepth d rest) := by
  rw [flattenDepth]

theorem flattenSpan : ∀ (n : Nat) (l : List ProtoEntry), l.length ≤ n →
    ∀ (prev : List Nat) (d : Nat) (lb : Int),
    (∀ e ∈ l, lb < (e.indent : Int)) →
    (∀ ind : Nat, lb < (ind : Int) → (∀ e0 ∈ l.head?, ind ≤ e0.indent) →
      chainDepth prev ind = d) →
    flattenDepth d (spanForest l) = depthTagged prev l := by
  intro n
  induction n with
  | zero =>
    intro l hlen prev d lb _ _
    have hl : l = [] := List.length_eq_zero.mp (Nat.le_zero.mp hlen)
    subst hl
    rw [spanForestNil, flattenDepthNil]
    rfl
  | succ n ih =>
    intro l hlen prev d lb hl hI
    cases l with
    | nil =>
      rw [spanForestNil, flattenDepthNil]
      rfl
    | cons e L =>
      have hd : chainDepth prev e.indent = d := by
        refine hI e.indent (hl e (List.mem_cons_self _ _)) ?_
        intro e0 he0
        simp only [List.head?_cons, Option.mem_def, Option.some.injEq] at he0
        rw [← he0]
      rw [spanForestCons, flattenDepthCons]
      show (d, e.protocol, e.frames, e.bytes) :: _ =
        depthTagged prev (e :: L)
      have hrhs : depthTagged prev (e :: L) =
          (chainDepth prev e.indent, e.protocol, e.frames, e.bytes)
            :: depthTagged (e.indent :: prev) L := rfl
      rw [hrhs, hd]
      congr 1
      have hsplit := List.takeWhile_append_dropWhile
        (p := fun x : ProtoEntry => decide (e.indent < x.indent)) (l := L)
      conv_rhs => rw [← hsplit]
      rw [depthTaggedAppend]
      congr 1
      · -- children region
        refine ih _ (Nat.le_trans (takeWhileLenLe _ L) (Nat.le_of_succ_le_succ hlen))
          (e.indent :: prev) (d + 1) (e.indent : Int) ?_ ?_
        · intro x hx
          have := of_decide_eq_true (memTakeWhileSat (fun y : ProtoEntry => decide (e.indent < y.indent)) hx)
          exact_mod_cast this
        · intro ind hind _
          have hlt : e.indent < ind := by exact_mod_cast hind
          show chainDepth (e.indent :: prev) ind = d + 1
          simp only [chainDepth, if_pos hlt, hd]
      · -- sibling region
        cases hdr : L.dropWhile (fun x : ProtoEntry => decide (e.indent < x.indent)) with
        | nil =>
          rw [spanForestNil, flattenDepthNil]
          rfl
        | cons h rest1 =>
          have hh_le_e : h.indent ≤ e.indent := by
            have := dropWhileHeadFalse _ L h rest1 hdr
            exact Nat.not_lt.mp (of_decide_eq_false this)
          refine ih _ ?_ _ d lb ?_ ?_
          · refine Nat.le_trans ?_ (Nat.le_of_succ_le_succ hlen)
            rw [← hdr]
            exact dropWhileLenLe _ L
          · intro x hx
            exact hl x (List.mem_cons_of_mem _ (memDropWhileMem (hdr ▸ hx)))
          · intro ind hlb hhead
            have hind_le_h : ind ≤ h.indent := by
              refine hhead h ?_
              simp
            have hind_le_e : ind ≤ e.indent := Nat.le_trans hind_le_h hh_le_e
            rw [chainDepthSkip _ _ ind ?_]
            · show chainDepth (e.indent :: prev) ind = d
              simp only [chainDepth, if_neg (Nat.not_lt.mpr hind_le_e)]
              refine hI ind hlb ?_
              intro e0 he0
              simp only [List.head?_cons, Option.mem_def, Option.some.injEq] at he0
              rw [← he0]
              exact hind_le_e
            · intro j hj
              rw [List.mem_reverse, List.mem_map] at hj
              obtain ⟨x, hx, hxj⟩ := hj
              have hex : e.indent < x.indent := of_decide_eq_true (memTakeWhileSat (fun y : ProtoEntry => decide (e.indent < y.indent)) hx)
              rw [← hxj]
              exact Nat.le_of_lt (Nat.lt_of_le_of_lt hind_le_e hex)

/-- Pre-order flattening of the built tree lists the matched entries in
source order, each at the spec depth. -/
theorem flattenBuildEq (l : List ProtoEntry) :
    flattenDepth 0 (buildForest l) = depthTagged [] l := by
  rw [buildForestEqSpan]
  refine flattenSpan l.length l (Nat.le_refl _) [] 0 (-1) ?_ ?_
  · intro e _
    omega
  · intro ind _ _
    rfl

/-! ### MAC, host and stream proofs -/

theorem macLoopEq : ∀ (lines : List (List Char)) (seen : List (List Char)),
    macLoop seen lines =
      (dedupFirstByKey seen (lines.map (fun line =>
        ((splitOnChar '\t' line).headD [], (splitOnChar '\t' line)[1]?)))).map
        mkMacRecord := by
  intro lines
  induction lines with
  | nil => intro seen; rfl
  | cons line rest ih =>
    intro seen
    simp only [macLoop, List.map_cons, dedupFirstByKey]
    by_cases h : (splitOnChar '\t' line).headD [] = [] ∨
        (splitOnChar '\t' line).headD [] ∈ seen
    · rw [if_pos h, if_pos h, ih seen]
    · rw [if_neg h, if_neg h, List.map_cons, ih]
      rfl

theorem getMacEq (text : List Char) :
    getMacAddresses text = (dedupFirstByKey [] (macPairs text)).map mkMacRecord := by
  unfold getMacAddresses macPairs
  exact macLoopEq _ []

theorem dedupNotSeen : ∀ (ps : List (List Char × Option (List Char)))
    (seen : List (List Char)) (x : List Char × Option (List Char)),
    x ∈ dedupFirstByKey seen ps → x.1 ∉ seen := by
  intro ps
  induction ps with
  | nil => intro seen x hx; simp [dedupFirstByKey] at hx
  | cons p rest ih =>
    intro seen x hx
    rw [show dedupFirstByKey seen (p :: rest) =
        (if p.1 = [] ∨ p.1 ∈ seen then dedupFirstByKey seen rest
         else (p.1, p.2) :: dedupFirstByKey (p.1 :: seen) rest) from by
      cases p; rfl] at hx
    by_cases h : p.1 = [] ∨ p.1 ∈ seen
    · rw [if_pos h] at hx
      exact ih seen x hx
    · rw [if_neg h] at hx
      rcases List.mem_cons.mp hx with h1 | h2
      · rw [h1]
        exact fun hmem => h (Or.inr hmem)
      · have := ih (p.1 :: seen) x h2
        exact fun hmem => this (List.mem_cons_of_mem _ hmem)

theorem dedupPairwiseKeys : ∀ (ps : List (List Char × Option (List Char)))
    (seen : List (List Char)),
    (dedupFirstByKey seen ps).Pairwise (fun a b => a.1 ≠ b.1) := by
  intro ps
  induction ps with
  | nil => intro seen; simp [dedupFirstByKey]
  | cons p rest ih =>
    intro seen
    rw [show dedupFirstByKey seen (p :: rest) =
        (if p.1 = [] ∨ p.1 ∈ seen then dedupFirstByKey seen rest
         else (p.1, p.2) :: dedupFirstByKey (p.1 :: seen) rest) from by
      cases p; rfl]
    by_cases h : p.1 = [] ∨ p.1 ∈ seen
    · rw [if_pos h]
      exact ih seen
    · rw [if_neg h]
      refine List.Pairwise.cons ?_ (ih (p.1 :: seen))
      intro y hy
      have := dedupNotSeen rest (p.1 :: seen) y hy
      exact fun he => this (he ▸ List.mem_cons_self _ _)

theorem ipFoldInv (rdns : List Char → Option (List Char)) :
    ∀ (lines : List (List Char)) (acc : List HostRecord),
    acc.Pairwise (fun r s => r.ip ≠ s.ip) →
    (∀ r ∈ acc, r.type = (if isPrivateIp r.ip then .privateScope else .publicScope)) →
    (lines.foldl (ipStep rdns) acc).Pairwise (fun r s => r.ip ≠ s.ip) ∧
      ∀ r ∈ lines.foldl (ipStep rdns) acc,
        r.type = (if isPrivateIp r.ip then .privateScope else .publicScope) := by
  intro lines
  induction lines with
  | nil => intro acc h1 h2; exact ⟨h1, h2⟩
  | cons line rest ih =>
    intro acc h1 h2
    rw [List.foldl_cons]
    refine ih (ipStep rdns acc line) ?_ ?_
    · unfold ipStep
      by_cases hc : (splitOnChar '\t' line).headD [] ≠ [] ∧
          ¬ acc.any (fun item => decide (item.ip = (splitOnChar '\t' line).headD []))
      · rw [if_pos hc]
        rw [List.pairwise_append]
        refine ⟨h1, List.pairwise_singleton _ _, ?_⟩
        intro r hr y hy
        rw [List.mem_singleton] at hy
        subst hy
        intro he
        exact hc.2 (List.any_eq_true.mpr ⟨r, hr, decide_eq_true he⟩)
      · rw [if_neg hc]
        exact h1
    · unfold ipStep
      by_cases hc : (splitOnChar '\t' line).headD [] ≠ [] ∧
          ¬ acc.any (fun item => decide (item.ip = (splitOnChar '\t' line).headD []))
      · rw [if_pos hc]
        intro r hr
        rcases List.mem_append.mp hr with ha | hb
        · exact h2 r ha
        · rw [List.mem_singleton] at hb
          subst hb
          rfl
      · rw [if_neg hc]
        exact h2

/-- Success test for `Except` results. -/
def exceptOk {ε α : Type} : Except ε α → Bool
  | .ok _ => true
  | .error _ => false

theorem tcpLoopAllOk (g : Nat → List Char) : ∀ (k i : Nat),
    tcpLoop (fun j => Except.ok (g j)) i k =
      Except.ok ((List.range' i k).map (fun j => mkStreamRecord j (g j))) := by
  intro k
  induction k with
  | zero => intro i; rfl
  | succ k ih =>
    intro i
    show (match tcpLoop (fun j => Except.ok (g j)) (i + 1) k with
      | Except.error e => Except.error e
      | Except.ok rest => Except.ok (mkStreamRecord i (g i) :: rest)) = _
    rw [ih (i + 1)]
    rfl

theorem tcpLoopOkIff (follow : Nat → Except Unit (List Char)) : ∀ (k i : Nat),
    exceptOk (tcpLoop follow i k) = true ↔
      ∀ j, j < k → exceptOk (follow (i + j)) = true := by
  intro k
  induction k with
  | zero =>
    intro i
    constructor
    · intro _ j hj; omega
    · intro _; rfl
  | succ k ih =>
    intro i
    cases hfi : follow i with
    | error e =>
      have hL : tcpLoop follow i (k + 1) = .error e := by
        show (match follow i with
          | Except.error e => Except.error e
          | Except.ok txt => match tcpLoop follow (i + 1) k with
            | Except.error e => Except.error e
            | Except.ok rest => Except.ok (mkStreamRecord i txt :: rest)) = _
        rw [hfi]
      rw [hL]
      constructor
      · intro h; simp [exceptOk] at h
      · intro hall
        have := hall 0 (Nat.succ_pos k)
        rw [Nat.add_zero, hfi] at this
        simp [exceptOk] at this
    | ok txt =>
      have hL : exceptOk (tcpLoop follow i (k + 1)) =
          exceptOk (tcpLoop follow (i + 1) k) := by
        show exceptOk (match follow i with
          | Except.error e => Except.error e
          | Except.ok txt => match tcpLoop follow (i + 1) k with
            | Except.error e => Except.error e
            | Except.ok rest => Except.ok (mkStreamRecord i txt :: rest)) = _
        rw [hfi]
        cases tcpLoop follow (i + 1) k with
        | error e => rfl
        | ok rest => rfl
      rw [hL, ih (i + 1)]
      constructor
      · intro hall j hj
        cases j with
        | zero =>
          rw [Nat.add_zero, hfi]
          rfl
        | succ j =>
          rw [show i + (j + 1) = i + 1 + j from by omega]
          exact hall j (by omega)
      · intro hall j hj
        have := hall (j + 1) (by omega)
        rwa [show i + (j + 1) = i + 1 + j from by omega] at this

/-- Spec-side first-occurrence IP key sequence: the distinct nonempty first
fields in order of first appearance (amended C6 dedup contract). -/
def dedupIps (seen : List (List Char)) : List (List Char) → List (List Char)
  | [] => []
  | k :: rest =>
    if k = [] ∨ k ∈ seen then dedupIps seen rest
    else k :: dedupIps (k :: seen) rest

theorem dedupIpsCongr : ∀ (ks : List (List Char)) (seen seen2 : List (List Char)),
    (∀ x, x ∈ seen ↔ x ∈ seen2) → dedupIps seen ks = dedupIps seen2 ks := by
  intro ks
  induction ks with
  | nil => intro _ _ _; rfl
  | cons k rest ih =>
    intro seen seen2 hiff
    simp only [dedupIps]
    by_cases h : k = [] ∨ k ∈ seen
    · rw [if_pos h, if_pos (by
        rcases h with h1 | h2
        · exact Or.inl h1
        · exact Or.inr ((hiff k).mp h2))]
      exact ih seen seen2 hiff
    · rw [if_neg h, if_neg (by
        intro h2
        rcases h2 with h1 | h2
        · exact h (Or.inl h1)
        · exact h (Or.inr ((hiff k).mpr h2)))]
      rw [ih (k :: seen) (k :: seen2) (by
        intro x
        simp only [List.mem_cons]
        constructor
        · intro hx
          rcases hx with h1 | h2
          · exact Or.inl h1
          · exact Or.inr ((hiff x).mp h2)
        · intro hx
          rcases hx with h1 | h2
          · exact Or.inl h1
          · exact Or.inr ((hiff x).mpr h2))]

theorem ipFoldIps (rdns : List Char → Option (List Char)) :
    ∀ (lines : List (List Char)) (acc : List HostRecord),
    (lines.foldl (ipStep rdns) acc).map HostRecord.ip =
      acc.map HostRecord.ip ++
        dedupIps (acc.map HostRecord.ip)
          (lines.map (fun l => (splitOnChar '\t' l).headD [])) := by
  intro lines
  induction lines with
  | nil => intro acc; simp [dedupIps]
  | cons line rest ih =>
    intro acc
    rw [List.foldl_cons, List.map_cons]
    have hmem : (acc.any (fun item => decide (item.ip = (splitOnChar '\t' line).headD []))
        = true) ↔ (splitOnChar '\t' line).headD [] ∈ acc.map HostRecord.ip := by
      rw [List.any_eq_true, List.mem_map]
      constructor
      · rintro ⟨r, hr, he⟩
        exact ⟨r, hr, of_decide_eq_true he⟩
      · rintro ⟨r, hr, he⟩
        exact ⟨r, hr, decide_eq_true he⟩
    by_cases hc : (splitOnChar '\t' line).headD [] ≠ [] ∧
        ¬ acc.any (fun item => decide (item.ip = (splitOnChar '\t' line).headD []))
    · have hstep : ipStep rdns acc line =
          acc ++ [⟨(splitOnChar '\t' line).headD [],
            (match trimToOption (splitOnChar '\t' line)[1]? with
             | some h => some h
             | none => guessDomain rdns ((splitOnChar '\t' line).headD [])),
            (if isPrivateIp ((splitOnChar '\t' line).headD [])
             then .privateScope else .publicScope)⟩] := by
        unfold ipStep
        rw [if_pos hc]
      rw [hstep, ih]
      simp only [List.map_append, List.map_cons, List.map_nil]
      rw [show dedupIps (acc.map HostRecord.ip)
          ((splitOnChar '\t' line).headD [] ::
            rest.map (fun l => (splitOnChar '\t' l).headD [])) =
          (splitOnChar '\t' line).headD [] ::
            dedupIps ((splitOnChar '\t' line).headD [] :: acc.map HostRecord.ip)
              (rest.map (fun l => (splitOnChar '\t' l).headD [])) from by
        simp only [dedupIps]
        rw [if_neg (by
          intro h
          rcases h with h1 | h2
          · exact hc.1 h1
          · exact hc.2 (hmem.mpr h2))]]
      rw [dedupIpsCongr _ _ ((splitOnChar '\t' line).headD [] :: acc.map HostRecord.ip)
        (by intro x; simp [List.mem_append, List.mem_cons, or_comm])]
      simp [List.append_assoc]
    · have hstep : ipStep rdns acc line = acc := by
        unfold ipStep
        rw [if_neg hc]
      rw [hstep, ih]
      rw [show dedupIps (acc.map HostRecord.ip)
          ((splitOnChar '\t' line).headD [] ::
            rest.map (fun l => (splitOnChar '\t' l).headD [])) =
          dedupIps (acc.map HostRecord.ip)
            (rest.map (fun l => (splitOnChar '\t' l).headD [])) from by
        simp only [dedupIps]
        rw [if_pos (by
          by_cases h1 : (splitOnChar '\t' line).headD [] = []
          · exact Or.inl h1
          · refine Or.inr (hmem.mp ?_)
            by_cases h2 : acc.any
                (fun item => decide (item.ip = (splitOnChar '\t' line).headD [])) = true
            · exact h2
            · exact absurd ⟨h1, fun h3 => (h2 h3)⟩ hc)]]

/-! ## Claim theorems -/

/-- Claim C1 (code-bug evidence): with every probe succeeding, `initialize`
populates the aggregate and `getResult` returns it; but when a single
probe other than the suricata one rejects (here `getCapinfos`) while all
others succeed, `Promise.all` rejects, the catch in `initialize` only
logs, `this.result` stays null and `getResult` polls forever — modeled as
`none` — instead of completing with the failing probe's documented empty
default alongside the other results, as the claim requires. -/
theorem C1_probe_failure_never_completes :
    getResultModel ⟨Except.ok [], Except.ok [], Except.ok [], Except.ok [],
        ⟨none, none, none, none⟩, Except.ok [], Except.ok []⟩ =
      some ⟨[], [], [], [], ⟨none, none, none, none⟩, [], []⟩ ∧
    getResultModel ⟨Except.error (), Except.ok [], Except.ok [], Except.ok [],
        ⟨none, none, none, none⟩, Except.ok [], Except.ok []⟩ = none :=
  ⟨rfl, rfl⟩

/-- Claim C2: the stack-based protocol-hierarchy builder equals the
declarative forest in which each node's children are exactly the following
matched lines of strictly larger indentation — equivalently, each node's
parent is the nearest preceding matched line with strictly smaller
indentation and lines with no such predecessor are roots, equal
indentation giving siblings; the pre-order traversal of the result lists
the matched lines in source order, each at depth equal to the number of
ancestors found by the backward nearest-smaller-indentation scan
(`chainDepth`); and the three-line example yields the two roots `ip` (with
sole child `tcp`) and `udp`. -/
theorem C2_protocol_hierarchy_tree (text : List Char) :
    getProtocolHierarchy text = spanForest (protoEntries text) ∧
    flattenDepth 0 (getProtocolHierarchy text) = depthTagged [] (protoEntries text) ∧
    getProtocolHierarchy
        ("ip frames:10 bytes:100\n  tcp frames:8 bytes:80\nudp frames:2 bytes:20".toList) =
      [ProtoNode.mk "ip".toList 10 100 [ProtoNode.mk "tcp".toList 8 80 []],
       ProtoNode.mk "udp".toList 2 20 []] :=
  ⟨buildForestEqSpan _, flattenBuildEq _, rfl⟩

/-- Claim C3 (code-bug evidence): on the spec's own two-line example the
parser keeps the values UNtrimmed (a leading space remains) because the
code applies `.trim()` to the join separator literal `":"` instead of to
the joined value; the claimed mapping with trimmed values is not
produced. -/
theorem C3_capinfos_value_untrimmed :
    getCapinfos ("File name: capture.pcap\nFile type: PCAP".toList) =
      [("File name".toList, " capture.pcap".toList),
       ("File type".toList, " PCAP".toList)] ∧
    getCapinfos ("File name: capture.pcap\nFile type: PCAP".toList) ≠
      [("File name".toList, "capture.pcap".toList),
       ("File type".toList, "PCAP".toList)] := by
  constructor
  · decide
  · decide

/-- Claim C4 counterexample: filtering an already-filtered corpus again
with the same selection changes the bytes — the second pass re-parses the
blank separator line into the preceding block, so each inter-block
separator grows from two newlines to three. -/
theorem C4_not_byte_idempotent :
    generateCustomRules
        (generateCustomRules ("# ID: 1\nA\n# ID: 2\nB".toList)
          ["1".toList, "2".toList])
        ["1".toList, "2".toList] ≠
      generateCustomRules ("# ID: 1\nA\n# ID: 2\nB".toList)
        ["1".toList, "2".toList] := by
  decide

/-- Claim C4 (amended): filtering with an empty selection returns the
corpus unchanged byte-for-byte; for a nonempty selection the first pass
emits the selected blocks joined by a blank line, and a second pass with
the same selection emits the SAME blocks in the same order, joined by a
three-newline separator instead of two — idempotent at the block level,
not byte-for-byte. -/
theorem C4_filter_idempotent_mod_separator (c : List Char) (S : List (List Char)) :
    generateCustomRules c [] = c ∧
    (S ≠ [] →
      generateCustomRules c S =
        joinSep ['\n', '\n'] ((specBlocks S (splitOnChar '\n' c)).map (joinSep ['\n'])) ∧
      generateCustomRules (generateCustomRules c S) S =
        joinSep ['\n', '\n', '\n']
          ((specBlocks S (splitOnChar '\n' c)).map (joinSep ['\n']))) :=
  ⟨genEmptySel c, fun h => ⟨genCharacterization c S h, genSecondPass c S h⟩⟩

/-- Claim C5 counterexample: two lines whose first fields differ only by a
trailing space produce TWO records with the same trimmed address (the
`seen` set stores the raw, untrimmed field), refuting deduplication keyed
on the trimmed address string. -/
theorem C5_trimmed_dedup_counterexample :
    getMacAddresses ("AA:BB \tVendorX\nAA:BB\tVendorY".toList) =
      [⟨"AA:BB".toList, some "VendorX".toList⟩,
       ⟨"AA:BB".toList, some "VendorY".toList⟩] ∧
    (getMacAddresses ("AA:BB \tVendorX\nAA:BB\tVendorY".toList)).map
        MacRecord.address =
      ["AA:BB".toList, "AA:BB".toList] := by
  constructor
  · decide
  · decide

/-- Claim C5 (amended): deduplication is keyed on the RAW (pre-trim) first
tab field — at most one record per distinct raw address, first occurrence
winning, empty first fields skipped — while the stored address is trimmed
and the manufacturer is trimmed or absent when empty; the claim's concrete
example (identical raw addresses) still yields exactly one record with
manufacturer VendorX. -/
theorem C5_mac_dedup_raw_first_wins (text : List Char) :
    getMacAddresses text = (dedupFirstByKey [] (macPairs text)).map mkMacRecord ∧
    (dedupFirstByKey [] (macPairs text)).Pairwise (fun a b => a.1 ≠ b.1) ∧
    getMacAddresses ("AA:BB\tVendorX\nAA:BB\tVendorY".toList) =
      [⟨"AA:BB".toList, some "VendorX".toList⟩] :=
  ⟨getMacEq text, dedupPairwiseKeys _ [], by decide⟩

/-- Claim C6 counterexample: `10.999.0.1` is not an RFC1918 member (999 is
not an octet), so the claim requires scope public; the code's
`split`/`Number` test checks only the first two numeric fields and
classifies the record private. -/
theorem C6_rfc1918_counterexample :
    (getIpHostPairs (fun _ => none) ("10.999.0.1\thost.example".toList)).map
        (fun r => (r.ip, r.type)) =
      [("10.999.0.1".toList, IpScope.privateScope)] ∧
    rfc1918Private ("10.999.0.1".toList) = false := by
  constructor
  · decide
  · decide

/-- Claim C6 (amended): the host list holds at most one record per
distinct raw source IP, the record sequence's IPs are exactly the distinct
nonempty first fields in order of first occurrence (first wins), and each
record's scope is the pure function `isPrivateIp` of its IP — the code's
four-field `Number` test, which agrees with RFC1918 on well-formed
addresses but classifies some malformed four-field addresses private; in
particular a record for 192.168.1.5 is always private and one for 8.8.8.8
always public. -/
theorem C6_host_dedup_and_scope (rdns : List Char → Option (List Char))
    (text : List Char) :
    (getIpHostPairs rdns text).Pairwise (fun r s => r.ip ≠ s.ip) ∧
    (getIpHostPairs rdns text).map HostRecord.ip =
      dedupIps [] ((splitOnChar '\n' (jsTrim text)).map
        (fun l => (splitOnChar '\t' l).headD [])) ∧
    (∀ r ∈ getIpHostPairs rdns text,
      r.type = (if isPrivateIp r.ip then IpScope.privateScope else IpScope.publicScope)) ∧
    (∀ r ∈ getIpHostPairs rdns text, r.ip = "192.168.1.5".toList →
      r.type = IpScope.privateScope) ∧
    (∀ r ∈ getIpHostPairs rdns text, r.ip = "8.8.8.8".toList →
      r.type = IpScope.publicScope) := by
  obtain ⟨h1, h2⟩ := ipFoldInv rdns (splitOnChar '\n' (jsTrim text)) []
    List.Pairwise.nil (by intro r hr; simp at hr)
  refine ⟨h1, ?_, h2, ?_, ?_⟩
  · have := ipFoldIps rdns (splitOnChar '\n' (jsTrim text)) []
    simpa using this
  · intro r hr hip
    rw [h2 r hr, hip]
    decide
  · intro r hr hip
    rw [h2 r hr, hip]
    decide

/-- Claim C7 counterexample: with two enumerated conversations, a thrown
follow invocation at index 0 aborts the whole probe with the error even
though the index-1 invocation succeeds — no record is reconstructed for
any index, refuting per-index isolation. -/
theorem C7_no_per_index_isolation :
    getTcpStreams ("a <-> b\nc <-> d".toList)
        (fun i => if i = 0 then Except.error ()
          else Except.ok ("Node 0: 1.1.1.1:10 Node 1: 2.2.2.2:20".toList)) =
      Except.error () ∧
    (if (1 : Nat) = 0 then Except.error ()
      else Except.ok ("Node 0: 1.1.1.1:10 Node 1: 2.2.2.2:20".toList)) =
      Except.ok ("Node 0: 1.1.1.1:10 Node 1: 2.2.2.2:20".toList) := by
  constructor
  · rfl
  · rfl

/-- Claim C7 (amended): the TCP stream loop has no per-index isolation —
the probe succeeds exactly when every enumerated follow invocation
succeeds (any thrown invocation aborts the whole probe), and when all
succeed it yields one record per index in order; within each record an
unmatched endpoint pattern defaults the corresponding fields to the empty
string rather than failing the record. -/
theorem C7_stream_loop_error_propagation (conv : List Char)
    (g : Nat → List Char) (follow : Nat → Except Unit (List Char)) :
    getTcpStreams conv (fun j => Except.ok (g j)) =
      Except.ok ((List.range' 0 (tcpConvCount conv)).map
        (fun j => mkStreamRecord j (g j))) ∧
    (exceptOk (getTcpStreams conv follow) = true ↔
      ∀ j, j < tcpConvCount conv → exceptOk (follow j) = true) ∧
    (∀ i txt, searchEndpoint ("Node 0:".toList) txt = none →
      (mkStreamRecord i txt).ip_src = [] ∧ (mkStreamRecord i txt).sport = []) ∧
    (∀ i txt, searchEndpoint ("Node 1:".toList) txt = none →
      (mkStreamRecord i txt).ip_dst = [] ∧ (mkStreamRecord i txt).dport = []) := by
  refine ⟨tcpLoopAllOk g _ 0, ?_, ?_, ?_⟩
  · have := tcpLoopOkIff follow (tcpConvCount conv) 0
    simpa using this
  · intro i txt h
    constructor
    · show (((searchEndpoint ("Node 0:".toList) txt).map Prod.fst).getD []) = []
      rw [h]
      rfl
    · show (((searchEndpoint ("Node 0:".toList) txt).map Prod.snd).getD []) = []
      rw [h]
      rfl
  · intro i txt h
    constructor
    · show (((searchEndpoint ("Node 1:".toList) txt).map Prod.fst).getD []) = []
      rw [h]
      rfl
    · show (((searchEndpoint ("Node 1:".toList) txt).map Prod.snd).getD []) = []
      rw [h]
      rfl

/-- Claim C8: with an empty selection the filter writes the corpus
unchanged; with a nonempty selection it emits, in corpus order, exactly
the blocks (tag line plus body up to the next tag or the end) whose
trimmed ID is selected, joined with one blank line between consecutive
blocks; and selections agreeing on every tag of the corpus produce the
same output, so selected IDs with no matching block have no effect. -/
theorem C8_filter_exact_blocks (c : List Char) (S T : List (List Char)) :
    generateCustomRules c [] = c ∧
    (S ≠ [] → generateCustomRules c S =
      joinSep ['\n', '\n'] ((specBlocks S (splitOnChar '\n' c)).map (joinSep ['\n']))) ∧
    (S ≠ [] → T ≠ [] →
      (∀ l ∈ splitOnChar '\n' c, isTagLine l = true →
        (ruleIdOf l ∈ S ↔ ruleIdOf l ∈ T)) →
      generateCustomRules c S = generateCustomRules c T) := by
  refine ⟨genEmptySel c, fun h => genCharacterization c S h, ?_⟩
  intro hS hT hiff
  rw [genCharacterization c S hS, genCharacterization c T hT,
    specBlocksCongr S T (splitOnChar '\n' c).length _ (Nat.le_refl _) hiff]

/-- Claim C9: the UDP stream probe starts with an unconditional
`return [];`, so it yields the empty list for every input, and any
completed aggregate whose udp slot came from it carries the empty
sequence. -/
theorem C9_udp_streams_empty (conv : List Char)
    (follow : Nat → Except Unit (List Char)) (o : ProbeOutcomes)
    (agg : AnalysisResult)
    (hu : o.udp_streams = Except.ok (getUdpStreams conv follow))
    (hr : initResult o = some agg) :
    getUdpStreams conv follow = [] ∧ agg.udp_streams = [] := by
  refine ⟨rfl, ?_⟩
  rcases o with ⟨c, i, m, p, su, t, u⟩
  simp only at hu
  subst hu
  cases c <;> cases i <;> cases m <;> cases p <;> cases t <;>
    first
      | (unfold initResult at hr
         rw [Option.some_inj] at hr
         subst hr
         rfl)
      | exact absurd hr (by simp [initResult])

/-- Witness for C9 at a concrete outcome set. -/
theorem C9_udp_streams_empty_witness :
    getUdpStreams [] (fun _ => Except.ok []) = [] ∧
    (AnalysisResult.mk [] [] [] [] ⟨none, none, none, none⟩ [] []).udp_streams = [] :=
  C9_udp_streams_empty [] (fun _ => Except.ok [])
    ⟨Except.ok [], Except.ok [], Except.ok [], Except.ok [],
      ⟨none, none, none, none⟩, Except.ok [], Except.ok []⟩
    ⟨[], [], [], [], ⟨none, none, none, none⟩, [], []⟩ rfl rfl

/-- Claim C10: for a nonempty selection, a corpus with no ID-tag line
filters to the empty output, and every line of the output is either one
of the blank separator lines between blocks or a line of some selected
block — in particular lines preceding the first tag of the corpus are
never emitted as such. -/
theorem C10_output_lines_within_blocks (c : List Char) (S : List (List Char))
    (h : S ≠ []) :
    ((∀ l ∈ splitOnChar '\n' c, isTagLine l = false) →
      generateCustomRules c S = []) ∧
    (∀ l ∈ splitOnChar '\n' (generateCustomRules c S),
      l = [] ∨ ∃ b ∈ specBlocks S (splitOnChar '\n' c), l ∈ b) := by
  constructor
  · intro hnone
    rw [genCharacterization c S h, specBlocksAllNonTag S _ hnone]
    rfl
  · exact genOutputLines c S h

/-- Witness for C10 at a concrete tagless corpus and selection. -/
theorem C10_output_lines_witness :
    generateCustomRules ("junk".toList) ["1".toList] = [] :=
  (C10_output_lines_within_blocks ("junk".toList) ["1".toList]
    (by decide)).1 (by decide)
